import Mathlib

/-!
Verification of the quiz application (`app.py`): the extraction gateway's
reply-cleaning and JSON parsing (`parse_quiz_file_with_ai`) and the quiz
session state machine in `main` (phases `initial` / `quiz_started` /
`show_feedback` / `finished`, the `user_answers` dictionary, the
`jump_to_question` handler and the score computation).

Strings handled by the gateway are modelled as `List Char`.  Python's
`str.replace(old, "")`, `str.strip()` and `json.loads` are given explicit
executable models below, faithful to their documented semantics.
-/

namespace Quiz

/-- Test whether `pat` is an initial segment of `s` (Python `s.startswith`),
used to model the left-to-right scan of `str.replace`. -/
def begins : List Char → List Char → Bool
  | [], _ => true
  | _ :: _, [] => false
  | p :: ps, c :: cs => p == c && begins ps cs

/-- Scanner for `str.replace(pat, "")`: walk the string left to right; on a
match emit nothing and skip the matched characters (the counter `k` counts
characters of a match still to be skipped), otherwise emit the character. -/
def goReplace (pat : List Char) : List Char → Nat → List Char
  | [], _ => []
  | c :: s, 0 =>
      if begins pat (c :: s) then goReplace pat s (pat.length - 1)
      else c :: goReplace pat s 0
  | _ :: s, k + 1 => goReplace pat s k

/-- Python `s.replace(pat, "")` for a non-empty pattern: delete every
occurrence of `pat`, scanning left to right without overlap. -/
def replaceAll (pat s : List Char) : List Char :=
  match pat with
  | [] => s
  | _ :: _ => goReplace pat s 0

/-- Characters removed by Python's argumentless `str.strip()` (exactly the
characters on which `str.isspace()` is true), given by code point. -/
def isPySpace (c : Char) : Bool :=
  let n := c.toNat
  (9 ≤ n && n ≤ 13) || n = 32 || (28 ≤ n && n ≤ 31) || n = 133 || n = 160 ||
  n = 5760 || (8192 ≤ n && n ≤ 8202) || n = 8232 || n = 8233 || n = 8239 ||
  n = 8287 || n = 12288

/-- Whitespace accepted by `json.loads` around and between JSON tokens
(the regex `[ \t\n\r]*` of Python's `json` module). -/
def isJsonWs (c : Char) : Bool :=
  let n := c.toNat
  n = 32 || n = 9 || n = 10 || n = 13

/-- Remove trailing characters satisfying `p`. -/
def rstrip (p : Char → Bool) (s : List Char) : List Char :=
  (s.reverse.dropWhile p).reverse

/-- Python `s.strip()` with no arguments. -/
def pyStrip (s : List Char) : List Char :=
  rstrip isPySpace (s.dropWhile isPySpace)

/-- The whitespace trimming `json.loads` performs around the single
top-level value (leading skip, trailing skip, then end-of-input check). -/
def jsonTrim (s : List Char) : List Char :=
  rstrip isJsonWs (s.dropWhile isJsonWs)

/-- JSON values as produced by Python's `json.loads`.  A number is kept as
its source lexeme; the application never reads numeric values, and equal
inputs parse to equal lexemes, so nothing below depends on numeric
conversion. -/
inductive Json where
  | null : Json
  | bool (b : Bool) : Json
  | num (lexeme : List Char) : Json
  | str (s : List Char) : Json
  | arr (elems : List Json) : Json
  | obj (fields : List (List Char × Json)) : Json

/-- Value of a hexadecimal digit, for `\uXXXX` string escapes. -/
def hexVal (c : Char) : Option Nat :=
  let n := c.toNat
  if 48 ≤ n && n ≤ 57 then some (n - 48)
  else if 97 ≤ n && n ≤ 102 then some (n - 97 + 10)
  else if 65 ≤ n && n ≤ 70 then some (n - 65 + 10)
  else none

/-- Decimal digit test (by code point, `0`–`9`). -/
def isDigitC (c : Char) : Bool :=
  48 ≤ c.toNat && c.toNat ≤ 57

/-- The eight single-character string escapes of JSON. -/
def escChar (e : Char) : Option Char :=
  if e = '"' then some '"'
  else if e = '\\' then some '\\'
  else if e = '/' then some '/'
  else if e = 'b' then some (Char.ofNat 8)
  else if e = 'f' then some (Char.ofNat 12)
  else if e = 'n' then some '\n'
  else if e = 'r' then some '\r'
  else if e = 't' then some '\t' else none

/-- Body of a JSON string after the opening quote: the decoded content and
the rest of the input after the closing quote.  Mirrors Python's strict
`json` scanner: control characters below 0x20 are rejected, the eight
single-character escapes and `\uXXXX` are decoded, anything else after a
backslash is an error.  (Surrogate-pair recombination is not modelled; no
input in this development uses `\u` escapes.) -/
def parseStringBody : List Char → Option (List Char × List Char)
  | [] => none
  | c :: rest =>
      if c = '"' then some ([], rest)
      else if c = '\\' then
        match rest with
        | [] => none
        | e :: rest2 =>
            if e = 'u' then
              match rest2 with
              | h1 :: h2 :: h3 :: h4 :: rest3 =>
                  match hexVal h1, hexVal h2, hexVal h3, hexVal h4 with
                  | some a, some b, some c2, some d =>
                      (parseStringBody rest3).map fun p =>
                        (Char.ofNat (((a * 16 + b) * 16 + c2) * 16 + d) :: p.1, p.2)
                  | _, _, _, _ => none
              | _ => none
            else
              match escChar e with
              | some ec => (parseStringBody rest2).map fun p => (ec :: p.1, p.2)
              | none => none
      else if c.toNat < 32 then none
      else (parseStringBody rest).map fun p => (c :: p.1, p.2)

/-- Longest prefix of decimal digits, with the rest. -/
def takeDigits : List Char → (List Char × List Char)
  | [] => ([], [])
  | c :: rest =>
      if isDigitC c then
        let p := takeDigits rest
        (c :: p.1, p.2)
      else ([], c :: rest)

/-- Integer-part digits of a JSON number: `0` alone, or a nonzero digit
followed by further digits (leading zeros are a parse error, as in Python's
`json`). -/
def parseIntDigits : List Char → Option (List Char × List Char)
  | [] => none
  | c :: rest =>
      if c = '0' then some (['0'], rest)
      else if isDigitC c then
        let p := takeDigits rest
        some (c :: p.1, p.2)
      else none

/-- Optional fraction part `.[0-9]+` of a JSON number lexeme; consumes
nothing when absent or incomplete (as the `json` module's regex does). -/
def parseFrac : List Char → (List Char × List Char)
  | [] => ([], [])
  | c :: rest =>
      if c = '.' then
        match takeDigits rest with
        | ([], _) => ([], c :: rest)
        | (ds, r) => (c :: ds, r)
      else ([], c :: rest)

/-- Optional exponent part `[eE][+-]?[0-9]+` of a JSON number lexeme;
consumes nothing when absent or incomplete. -/
def parseExp : List Char → (List Char × List Char)
  | [] => ([], [])
  | e :: rest =>
      if e = 'e' || e = 'E' then
        match rest with
        | [] => ([], [e])
        | s :: rest2 =>
            if s = '+' || s = '-' then
              match takeDigits rest2 with
              | ([], _) => ([], e :: s :: rest2)
              | (ds, r) => (e :: s :: ds, r)
            else
              match takeDigits (s :: rest2) with
              | ([], _) => ([], e :: s :: rest2)
              | (ds, r) => (e :: ds, r)
      else ([], e :: rest)

/-- Lexeme of a JSON number at the head of the input (Python's `NUMBER_RE`:
`-?(0|[1-9][0-9]*)(\.[0-9]+)?([eE][+-]?[0-9]+)?`), with the rest. -/
def parseNumber : List Char → Option (List Char × List Char)
  | [] => none
  | c :: rest =>
      if c = '-' then
        match parseIntDigits rest with
        | some (ds, r) =>
            let pf := parseFrac r
            let pe := parseExp pf.2
            some (c :: (ds ++ pf.1 ++ pe.1), pe.2)
        | none => none
      else
        match parseIntDigits (c :: rest) with
        | some (ds, r) =>
            let pf := parseFrac r
            let pe := parseExp pf.2
            some (ds ++ pf.1 ++ pe.1, pe.2)
        | none => none

mutual

/-- One JSON value at the head of the input, following the grammar Python's
`json.loads` accepts.  `fuel` bounds the recursion; every caller supplies
enough for its input. -/
def parseVal : Nat → List Char → Option (Json × List Char)
  | 0, _ => none
  | _ + 1, [] => none
  | fuel + 1, c :: s =>
      if c = '"' then (parseStringBody s).map fun p => (Json.str p.1, p.2)
      else if c = '[' then
        match s.dropWhile isJsonWs with
        | ']' :: r => some (Json.arr [], r)
        | s1 => (parseItems fuel s1).map fun p => (Json.arr p.1, p.2)
      else if c = '{' then
        match s.dropWhile isJsonWs with
        | '}' :: r => some (Json.obj [], r)
        | s1 => (parseMembers fuel s1).map fun p => (Json.obj p.1, p.2)
      else if c = 't' then
        match s with
        | 'r' :: 'u' :: 'e' :: r => some (Json.bool true, r)
        | _ => none
      else if c = 'f' then
        match s with
        | 'a' :: 'l' :: 's' :: 'e' :: r => some (Json.bool false, r)
        | _ => none
      else if c = 'n' then
        match s with
        | 'u' :: 'l' :: 'l' :: r => some (Json.null, r)
        | _ => none
      else if c = '-' || isDigitC c then
        (parseNumber (c :: s)).map fun p => (Json.num p.1, p.2)
      else none

/-- Comma-separated array items after `[` (whitespace already skipped),
up to and including the closing `]`. -/
def parseItems : Nat → List Char → Option (List Json × List Char)
  | 0, _ => none
  | fuel + 1, s =>
      match parseVal fuel s with
      | some (v, r) =>
          match r.dropWhile isJsonWs with
          | ',' :: r2 =>
              (parseItems fuel (r2.dropWhile isJsonWs)).map fun p => (v :: p.1, p.2)
          | ']' :: r2 => some ([v], r2)
          | _ => none
      | none => none

/-- Comma-separated `"key": value` members after `{` (whitespace already
skipped), up to and including the closing brace. -/
def parseMembers : Nat → List Char → Option (List (List Char × Json) × List Char)
  | 0, _ => none
  | fuel + 1, s =>
      match s with
      | '"' :: s1 =>
          match parseStringBody s1 with
          | some (key, r1) =>
              match r1.dropWhile isJsonWs with
              | ':' :: r2 =>
                  match parseVal fuel (r2.dropWhile isJsonWs) with
                  | some (v, r3) =>
                      match r3.dropWhile isJsonWs with
                      | ',' :: r4 =>
                          (parseMembers fuel (r4.dropWhile isJsonWs)).map
                            fun p => ((key, v) :: p.1, p.2)
                      | '}' :: r4 => some ([(key, v)], r4)
                      | _ => none
                  | none => none
              | _ => none
          | none => none
      | _ => none

end

/-- Model of `json.loads text` as a value: trim the whitespace `json.loads`
skips before and after the document, parse exactly one value, and fail if
anything is left over (the module's `Extra data` error). -/
def jsonLoads (s : List Char) : Option Json :=
  match parseVal (2 * (jsonTrim s).length + 2) (jsonTrim s) with
  | some (v, r) => if r = [] then some v else none
  | none => none

/-- The backtick character, written by code point. -/
def btChar : Char := Char.ofNat 96

/-- The pattern removed first on line 76 of app.py. -/
def fenceJson : List Char := [btChar, btChar, btChar, 'j', 's', 'o', 'n']

/-- The pattern removed second on line 76 of app.py. -/
def fence : List Char := [btChar, btChar, btChar]

/-- Line 76 of app.py:
`response.text.strip().replace("```json", "").replace("```", "")`. -/
def cleanReply (s : List Char) : List Char :=
  replaceAll fence (replaceAll fenceJson (pyStrip s))

/-- One question as `main` reads it from the store (`q_data['question']`,
`q_data['options']`, `q_data['answer']`). -/
structure QuestionRecord where
  question : String
  options : List String
  answer : String
deriving DecidableEq

/-- Key lookup in a parsed JSON object, as in the Python `dict` built by
`json.loads`: with duplicate keys the last occurrence wins. -/
def jLookup (fields : List (List Char × Json)) (key : List Char) : Option Json :=
  match fields with
  | [] => none
  | (k, v) :: rest =>
      match jLookup rest key with
      | some v' => some v'
      | none => if k = key then some v else none

/-- A parsed JSON value as a Python string. -/
def getStr : Json → Option String
  | Json.str s => some (String.mk s)
  | _ => none

/-- A list of parsed JSON values as a list of strings. -/
def getStrs : List Json → Option (List String)
  | [] => some []
  | j :: rest =>
      match getStr j, getStrs rest with
      | some s, some ss => some (s :: ss)
      | _, _ => none

/-- One parsed JSON element interpreted as the record shape `main`
dereferences: a string under `question`, an array of strings under
`options`, a string under `answer`.  `parse_quiz_file_with_ai` itself never
checks this shape; `main` simply indexes into whatever was stored. -/
def asRecord : Json → Option QuestionRecord
  | Json.obj fields =>
      match jLookup fields "question".toList, jLookup fields "options".toList,
            jLookup fields "answer".toList with
      | some qj, some (Json.arr oe), some aj =>
          match getStr qj, getStrs oe, getStr aj with
          | some q, some os, some a => some ⟨q, os, a⟩
          | _, _, _ => none
      | _, _, _ => none
  | _ => none

/-- Element-wise record interpretation of the stored list. -/
def asRecordList : List Json → Option (List QuestionRecord)
  | [] => some []
  | j :: rest =>
      match asRecord j, asRecordList rest with
      | some r, some rs => some (r :: rs)
      | _, _ => none

/-- The stored question list, interpreted as records when it has the shape
`main` relies on. -/
def asRecords : Json → Option (List QuestionRecord)
  | Json.arr es => asRecordList es
  | _ => none

/-- Outcome of the external model call inside `parse_quiz_file_with_ai`:
either some step of the call raises, or a reply text comes back. -/
inductive CallOutcome where
  | failure : CallOutcome
  | reply (text : List Char) : CallOutcome

/-- Lines 73–92 of app.py, as a function of the call outcome: on a reply,
clean it (line 76) and parse it with `json.loads` (line 79), returning the
parsed value; on any exception — including a `json.loads` failure — the
`except` branch returns the empty list (line 92) after showing an error
message on screen.  The Python return value is a JSON-shaped object either
way; the empty list is `Json.arr []`. -/
def parse_quiz_file_with_ai : CallOutcome → Json
  | CallOutcome.failure => Json.arr []
  | CallOutcome.reply text =>
      match jsonLoads (cleanReply text) with
      | some v => v
      | none => Json.arr []

/-- The `st.session_state.state` strings driving `main`. -/
inductive Phase where
  | initial : Phase
  | quiz_started : Phase
  | show_feedback : Phase
  | finished : Phase
deriving DecidableEq

/-- The session fields `main` keeps in `st.session_state` (lines 101–105
of app.py).  `user_answers` is a Python dict from question index to the
selected option text, modelled as an insertion-ordered association list
with in-place overwrite. -/
structure SessionState where
  state : Phase
  questions : List QuestionRecord
  current_question : Nat
  user_answers : List (Nat × String)
deriving DecidableEq

/-- Python `user_answers.get(i)`. -/
def dictGet : List (Nat × String) → Nat → Option String
  | [], _ => none
  | (k, v) :: rest, i => if k = i then some v else dictGet rest i

/-- Python `user_answers[i] = v`: overwrite the existing entry in place, or
append a new one. -/
def dictSet : List (Nat × String) → Nat → String → List (Nat × String)
  | [], i, v => [(i, v)]
  | (k, w) :: rest, i, v =>
      if k = i then (k, v) :: rest else (k, w) :: dictSet rest i v

/-- Lines 101–105: the freshly initialised session. -/
def initialState : SessionState :=
  ⟨Phase.initial, [], 0, []⟩

/-- Lines 121–127: store the extraction result as the question list and
start the quiz when it is non-empty (Python truthiness of a list); on an
empty result the session stays on the upload screen. -/
def uploadQuiz (s : SessionState) (qs : List QuestionRecord) : SessionState :=
  if qs = [] then { s with questions := qs }
  else { s with questions := qs, state := Phase.quiz_started }

/-- Line 132: `sum(1 for i, q in enumerate(st.session_state.questions) if
st.session_state.user_answers.get(i) == q['answer'])`. -/
def computeScore (s : SessionState) : Nat :=
  s.questions.enum.countP fun p => dictGet s.user_answers p.1 == some p.2.answer

/-- The dummy record used only as the never-reached default of list
indexing (Python raises `IndexError` instead of producing any default). -/
def dummyRecord : QuestionRecord := ⟨"", [], ""⟩

/-- Line 152: `q_data = st.session_state.questions[q_index]`.  The default
is never reached while `current_question` is in bounds (Python would raise
`IndexError` there). -/
def currentRecord (s : SessionState) : QuestionRecord :=
  s.questions.getD s.current_question dummyRecord

/-- Line 169: `valid_options = [opt for opt in q_data["options"] if opt]` —
Python string truthiness keeps exactly the non-empty options. -/
def valid_options (q : QuestionRecord) : List String :=
  q.options.filter fun o => o ≠ ""

/-- Decimal digit character, by code point. -/
def digitC (d : Nat) : Char := Char.ofNat (48 + d)

/-- Decimal digits of `n`, most significant first; `fuel` bounds the
recursion and is always supplied large enough. -/
def toDecAux : Nat → Nat → List Char
  | 0, _ => []
  | fuel + 1, n =>
      if n < 10 then [digitC n]
      else toDecAux fuel (n / 10) ++ [digitC (n % 10)]

/-- Python's decimal rendering of a non-negative `int`, as an f-string
interpolates it. -/
def toDec (n : Nat) : List Char := toDecAux (n + 1) n

/-- Python `int(s)` on a string of decimal digits (the only inputs it
receives here). -/
def parseDec (s : List Char) : Nat :=
  s.foldl (fun acc c => acc * 10 + (c.toNat - 48)) 0

/-- Python `s.split(" ")`: split at every single space. -/
def splitSp : List Char → List (List Char)
  | [] => [[]]
  | c :: rest =>
      let r := splitSp rest
      if c = ' ' then [] :: r
      else
        match r with
        | h :: t => (c :: h) :: t
        | [] => [[c]]

/-- One of the selectbox labels built on line 162: `f"Question {i+1}"`. -/
def questionLabel (i : Nat) : List Char :=
  "Question ".toList ++ toDec (i + 1)

/-- Lines 154–160, the `jump_to_question` handler: from the selected label,
take the word after the space, convert it with `int`, subtract 1; store it
as `current_question` and return to the `quiz_started` phase. -/
def jump_to_question (s : SessionState) (label : List Char) : SessionState :=
  let new_index := parseDec ((splitSp label).getD 1 []) - 1
  { s with current_question := new_index, state := Phase.quiz_started }

/-- Lines 177–180: the answer-form submission stores the chosen option
under the current index and moves to the feedback phase. -/
def submitAnswer (s : SessionState) (choice : String) : SessionState :=
  { s with
      user_answers := dictSet s.user_answers s.current_question choice,
      state := Phase.show_feedback }

/-- Lines 183 and 189–193: the correctness shown in the feedback phase —
`last_answer = st.session_state.user_answers.get(q_index, "")` compared by
`==` against `q_data['answer']`. -/
def feedbackCorrect (s : SessionState) : Bool :=
  (dictGet s.user_answers s.current_question).getD "" == (currentRecord s).answer

/-- Lines 196–204: the `Next Question ->` / `Finish Quiz` button.  On the
last question the phase becomes `finished` and the index stays put;
otherwise the index is incremented and the next question is presented. -/
def advance (s : SessionState) : SessionState :=
  if s.current_question + 1 = s.questions.length then
    { s with state := Phase.finished }
  else
    { s with
        current_question := s.current_question + 1,
        state := Phase.quiz_started }

/-- Lines 173–174: the radio index preselected when re-entering a question —
the stored answer's first position among the valid options when it occurs
there, else 0. -/
def preselectIndex (s : SessionState) : Nat :=
  match dictGet s.user_answers s.current_question with
  | some prev =>
      if prev ∈ valid_options (currentRecord s) then
        (valid_options (currentRecord s)).indexOf prev
      else 0
  | none => 0

/-- The score as §4.2 of the spec words it: the number of indices `i` in
`[0, len(questions))` whose stored answer equals `questions[i].answerText`;
an index with no stored answer counts as incorrect.  This rendering of the
spec sentence is compared against `computeScore` (line 132 of app.py). -/
def specScore (s : SessionState) : Nat :=
  ((List.range s.questions.length).filter fun i =>
    match dictGet s.user_answers i with
    | some a => a == (s.questions.getD i dummyRecord).answer
    | none => false).length

/-- The answer ledger holding the correct answer for every index below `k`:
the contents of `user_answers` after the first `k` questions have been
answered correctly in order. -/
def correctLedger (qs : List QuestionRecord) (k : Nat) : List (Nat × String) :=
  (List.range k).map fun j => (j, (qs.getD j dummyRecord).answer)

/-- The §8 round-trip driver: starting at the current question, submit the
current record's `answerText` and press the advance button, `n` times. -/
def answerAllCorrect : Nat → SessionState → SessionState
  | 0, s => s
  | n + 1, s => answerAllCorrect n (advance (submitAnswer s (currentRecord s).answer))

/-- A reply wrapped in the fenced code markers the model tends to emit:
the text between a leading *```json* line and a trailing *```* line. -/
def wrapFence (t : List Char) : List Char :=
  fenceJson ++ '\n' :: (t ++ '\n' :: fence)

/-- The extraction reply of the §8 scenario: one record whose `answer`
matches no entry of `options`. -/
def c1Reply : List Char :=
  "[\x7b\"question\":\"Q\",\"options\":[\"A\",\"B\"],\"answer\":\"C\"\x7d]".toList

/-- A reply whose JSON payload carries triple backticks inside the
`question` string. -/
def c10Reply : List Char :=
  "[\x7b\"question\":\"use ``` now\",\"options\":[\"A\",\"B\"],\"answer\":\"A\"\x7d]".toList

/-- Number of leading backticks of a character list. -/
def leadTicks (s : List Char) : Nat :=
  (s.takeWhile fun c => c = btChar).length

/-- The §3 bound on the current index: once questions are loaded,
`0 ≤ currentIndex < len(questions)` (the lower bound is inherent in the
`Nat` index). -/
def indexInv (s : SessionState) : Prop :=
  s.questions ≠ [] → s.current_question < s.questions.length

/-- The input `s` is the remainder `r` preceded by a non-empty consumed
chunk whose final character is not Python whitespace.  Every successful
parser step below consumes such a chunk. -/
def Consumed (s r : List Char) : Prop :=
  ∃ u c, s = u ++ r ∧ u.getLast? = some c ∧ isPySpace c = false

-- ========================================================================
-- Theorems.  Everything below is proof; no further definitions occur.
-- ========================================================================

theorem goReplace_skip (pat : List Char) :
    ∀ (s : List Char) (k : Nat), goReplace pat s k = goReplace pat (s.drop k) 0 := by
  intro s
  induction s with
  | nil => intro k; cases k <;> rfl
  | cons c s ih =>
      intro k
      cases k with
      | zero => rfl
      | succ j => simpa [goReplace] using ih j

theorem replaceAll_nil (pat : List Char) : replaceAll pat [] = [] := by
  cases pat <;> rfl

theorem replaceAll_cons (p : Char) (ps : List Char) (c : Char) (s : List Char) :
    replaceAll (p :: ps) (c :: s) =
      if begins (p :: ps) (c :: s) then replaceAll (p :: ps) (s.drop ps.length)
      else c :: replaceAll (p :: ps) s := by
  show goReplace (p :: ps) (c :: s) 0 =
      if begins (p :: ps) (c :: s) then goReplace (p :: ps) (s.drop ps.length) 0
      else c :: goReplace (p :: ps) s 0
  by_cases h : begins (p :: ps) (c :: s) = true
  · rw [if_pos h]
    have h1 : goReplace (p :: ps) (c :: s) 0 = goReplace (p :: ps) s ps.length := by
      simp [goReplace, h]
    rw [h1, goReplace_skip]
  · rw [if_neg h]
    simp [goReplace, h]

theorem begins_length {pat s : List Char} (h : begins pat s = true) :
    pat.length ≤ s.length := by
  induction pat generalizing s with
  | nil => simp
  | cons p ps ih =>
      cases s with
      | nil => simp [begins] at h
      | cons c cs =>
          simp only [begins, Bool.and_eq_true] at h
          simpa using ih h.2

theorem begins_append_cons {pat : List Char} {c : Char} (hc : c ∉ pat)
    (x y : List Char) : begins pat (x ++ c :: y) = begins pat x := by
  induction pat generalizing x with
  | nil => rfl
  | cons p ps ih =>
      cases x with
      | nil =>
          have hpc : (p == c) = false := by
            simp only [beq_eq_false_iff_ne, ne_eq]
            intro h; exact hc (h ▸ List.mem_cons_self p ps)
          simp [begins, hpc]
      | cons d x' =>
          have : c ∉ ps := fun h => hc (List.mem_cons_of_mem _ h)
          simp [begins, ih this x']

theorem replaceAll_untouched {pat s : List Char} (h : ∀ c ∈ s, c ∉ pat) :
    replaceAll pat s = s := by
  induction s with
  | nil => exact replaceAll_nil pat
  | cons c s ih =>
      cases pat with
      | nil => rfl
      | cons p ps =>
          have hc : c ∉ p :: ps := h c (List.mem_cons_self c s)
          have hb : begins (p :: ps) (c :: s) = false := by
            have : (p == c) = false := by
              simp only [beq_eq_false_iff_ne, ne_eq]
              intro hpc; exact hc (hpc ▸ List.mem_cons_self p ps)
            simp [begins, this]
          rw [replaceAll_cons, hb]
          simp only [if_false, Bool.false_eq_true]
          have := ih (fun d hd => h d (List.mem_cons_of_mem _ hd))
          rw [this]

theorem replaceAll_split {pat : List Char} {c : Char} (hc : c ∉ pat)
    (x y : List Char) :
    replaceAll pat (x ++ c :: y) = replaceAll pat x ++ c :: replaceAll pat y := by
  cases pat with
  | nil => rfl
  | cons p ps =>
      have hpc : (p == c) = false := by
        simp only [beq_eq_false_iff_ne, ne_eq]
        intro h; exact hc (h ▸ List.mem_cons_self p ps)
      have hbase : ∀ z : List Char,
          replaceAll (p :: ps) (c :: z) = c :: replaceAll (p :: ps) z := by
        intro z
        rw [replaceAll_cons]
        have hb : begins (p :: ps) (c :: z) = false := by simp [begins, hpc]
        rw [hb]
        simp
      obtain ⟨n, hn⟩ : ∃ n, x.length ≤ n := ⟨x.length, le_refl _⟩
      induction n generalizing x with
      | zero =>
          have hx : x = [] := by
            cases x with
            | nil => rfl
            | cons d x' => simp at hn
          subst hx
          simp [hbase, replaceAll_nil]
      | succ n ih =>
          cases x with
          | nil => simp [hbase, replaceAll_nil]
          | cons d x' =>
              have hb := begins_append_cons hc (d :: x') y
              rw [List.cons_append] at hb
              rw [List.cons_append, replaceAll_cons, hb, replaceAll_cons]
              by_cases hbx : begins (p :: ps) (d :: x') = true
              · rw [if_pos hbx, if_pos hbx]
                have hlen : ps.length ≤ x'.length := by
                  have := begins_length hbx
                  simpa using this
                have hdrop : (x' ++ c :: y).drop ps.length =
                    x'.drop ps.length ++ c :: y := by
                  rw [List.drop_append_eq_append_drop,
                    Nat.sub_eq_zero_of_le hlen, List.drop_zero]
                rw [hdrop]
                have hle : (x'.drop ps.length).length ≤ n := by
                  have h1 : (x'.drop ps.length).length = x'.length - ps.length :=
                    List.length_drop _ _
                  have h2 : x'.length + 1 ≤ n + 1 := by simpa using hn
                  omega
                exact ih _ hle
              · rw [if_neg hbx, if_neg hbx]
                have hle : x'.length ≤ n := by
                  have h2 : x'.length + 1 ≤ n + 1 := by simpa using hn
                  omega
                rw [ih _ hle]
                rfl

theorem replaceAll_append_right {pat ws : List Char}
    (h : ∀ c ∈ ws, c ∉ pat) (x : List Char) :
    replaceAll pat (x ++ ws) = replaceAll pat x ++ ws := by
  cases ws with
  | nil => simp
  | cons c ws' =>
      have hc : c ∉ pat := h c (List.mem_cons_self c ws')
      rw [replaceAll_split hc x ws',
        replaceAll_untouched (fun d hd => h d (List.mem_cons_of_mem _ hd))]

theorem replaceAll_append_left {pat ws : List Char}
    (h : ∀ c ∈ ws, c ∉ pat) (x : List Char) :
    replaceAll pat (ws ++ x) = ws ++ replaceAll pat x := by
  induction ws with
  | nil => simp
  | cons c ws' ih =>
      have hc : c ∉ pat := h c (List.mem_cons_self c ws')
      have h' : ∀ d ∈ ws', d ∉ pat := fun d hd => h d (List.mem_cons_of_mem _ hd)
      have := replaceAll_split hc [] (ws' ++ x)
      simp only [List.nil_append, replaceAll_nil] at this
      rw [List.cons_append, this, ih h']
      rfl


theorem fenceJson_chars : fenceJson = "```json".toList := by decide

theorem fence_chars : fence = "```".toList := by decide

/-- C1, counterexample.  The §8 scenario reply
`[{"question":"Q","options":["A","B"],"answer":"C"}]` does not yield an
empty question store: `parse_quiz_file_with_ai` validates nothing after
`json.loads` (lines 79–83 of app.py), so the record whose answer matches
no option enters the store, and the store is not the empty list the claim
requires. -/
theorem c1_counterexample :
    asRecords (parse_quiz_file_with_ai (CallOutcome.reply c1Reply)) =
      some [⟨"Q", ["A", "B"], "C"⟩] ∧
    ("C" ∈ (["A", "B"] : List String) → False) ∧
    parse_quiz_file_with_ai (CallOutcome.reply c1Reply) ≠ Json.arr [] := by
  refine ⟨rfl, by decide, ?_⟩
  intro h
  have h2 : asRecords (Json.arr []) =
      some [(⟨"Q", ["A", "B"], "C"⟩ : QuestionRecord)] := by
    rw [← h]; rfl
  simp [asRecords, asRecordList] at h2

/-- C1, amended.  No element of the parsed JSON array is validated against
the `answerText ∈ options` invariant: the array is stored as returned by
`json.loads`, so the §8 scenario reply yields a store holding exactly the
one record, and that record violates the invariant. -/
theorem c1_theorem :
    asRecords (parse_quiz_file_with_ai (CallOutcome.reply c1Reply)) =
      some [⟨"Q", ["A", "B"], "C"⟩] ∧
    (⟨"Q", ["A", "B"], "C"⟩ : QuestionRecord).answer ∉
      (⟨"Q", ["A", "B"], "C"⟩ : QuestionRecord).options :=
  ⟨rfl, by decide⟩

/-- C5, counterexample.  The gateway's result on a failed call is equal to
its result on a successful call that returned the empty JSON array: both
are the empty list (line 92 and line 79 of app.py), so the failure outcome
is not distinguishable from a successful empty extraction.  The
human-readable cause and raw reply exist only as on-screen messages
(`st.error` / `st.code`), not in the result. -/
theorem c5_counterexample :
    parse_quiz_file_with_ai CallOutcome.failure =
      parse_quiz_file_with_ai (CallOutcome.reply "[]".toList) := rfl

/-- C5, amended.  On any failure `parse_quiz_file_with_ai` returns the
empty list, the very value a successful extraction of `[]` returns, and
`main` treats the two identically: the truthiness test on line 123 fails
and the session stays on the upload screen. -/
theorem c5_theorem :
    parse_quiz_file_with_ai CallOutcome.failure = Json.arr [] ∧
    parse_quiz_file_with_ai (CallOutcome.reply "[]".toList) = Json.arr [] ∧
    ∀ s : SessionState, uploadQuiz s [] = { s with questions := [] } :=
  ⟨rfl, rfl, fun _ => rfl⟩

theorem countP_enumFrom_eq (ans : List (Nat × String)) :
    ∀ (qs : List QuestionRecord) (k : Nat),
      (List.enumFrom k qs).countP (fun p => dictGet ans p.1 == some p.2.answer) =
      ((List.range qs.length).filter fun j =>
        match dictGet ans (k + j) with
        | some a => a == (qs.getD j dummyRecord).answer
        | none => false).length := by
  intro qs
  induction qs with
  | nil => intro k; rfl
  | cons q qs ih =>
      intro k
      have hL : List.enumFrom k (q :: qs) = (k, q) :: List.enumFrom (k + 1) qs := rfl
      rw [hL, List.countP_cons, ih (k + 1)]
      have hR : List.range (q :: qs).length =
          0 :: (List.range qs.length).map Nat.succ := by
        simpa using List.range_succ_eq_map qs.length
      rw [hR, List.filter_cons]
      have hmatch0 :
          (match dictGet ans (k + 0) with
            | some a => a == ((q :: qs).getD 0 dummyRecord).answer
            | none => false) = (dictGet ans k == some q.answer) := by
        cases hd : dictGet ans k <;> simp [hd]
      rw [List.filter_map]
      have hcongr :
          (List.range qs.length).filter
            ((fun j =>
              match dictGet ans (k + j) with
              | some a => a == ((q :: qs).getD j dummyRecord).answer
              | none => false) ∘ Nat.succ) =
          (List.range qs.length).filter fun j =>
            match dictGet ans (k + 1 + j) with
            | some a => a == (qs.getD j dummyRecord).answer
            | none => false := by
        apply List.filter_congr
        intro j _
        have harith : k + (j + 1) = k + 1 + j := by omega
        simp only [Function.comp, Nat.succ_eq_add_one, harith, List.getD_cons_succ]
      rw [hcongr, hmatch0]
      rcases hb : dictGet ans k == some q.answer with _ | _ <;>
        simp [hb, Nat.add_comm]

theorem computeScore_eq_specScore (s : SessionState) :
    computeScore s = specScore s := by
  unfold computeScore specScore
  have h := countP_enumFrom_eq s.user_answers s.questions 0
  have henum : s.questions.enum = List.enumFrom 0 s.questions := rfl
  rw [henum, h]
  congr 1
  apply List.filter_congr
  intro j _
  simp

/-- C2: `computeScore` (line 132 of app.py) returns exactly the count of
indices `i` in `[0, len(questions))` whose stored answer equals
`questions[i].answerText` by string equality; an index with no stored
answer contributes zero.  `specScore` renders the spec sentence verbatim;
the hypothesis records that the score is computed in the `finished`
phase. -/
theorem c2_theorem (s : SessionState) (_hphase : s.state = Phase.finished) :
    computeScore s = specScore s :=
  computeScore_eq_specScore s

/-- C2 witness: a concrete finished session with one answered question. -/
theorem c2_witness :
    (⟨Phase.finished, [⟨"2+2?", ["3", "4"], "4"⟩], 0, [(0, "4")]⟩ :
        SessionState).state = Phase.finished ∧
    computeScore ⟨Phase.finished, [⟨"2+2?", ["3", "4"], "4"⟩], 0, [(0, "4")]⟩ =
      specScore ⟨Phase.finished, [⟨"2+2?", ["3", "4"], "4"⟩], 0, [(0, "4")]⟩ :=
  ⟨rfl, c2_theorem ⟨Phase.finished, [⟨"2+2?", ["3", "4"], "4"⟩], 0, [(0, "4")]⟩ rfl⟩

theorem getD_map_options_answer (f : QuestionRecord → List String) :
    ∀ (l : List QuestionRecord) (i : Nat),
      ((l.map fun q => { q with options := f q }).getD i dummyRecord).answer =
        (l.getD i dummyRecord).answer := by
  intro l
  induction l with
  | nil => intro i; rfl
  | cons q l ih =>
      intro i
      cases i with
      | zero => rfl
      | succ j => simpa using ih j

/-- C8: the choices offered to the user are exactly the non-empty options
(line 169), and the correctness judgement of lines 183–193 reads only the
stored answer and the record's `answerText`: rewriting every record's
option list arbitrarily — in particular filtering out empties — leaves the
judgement unchanged. -/
theorem c8_theorem :
    (∀ q : QuestionRecord, valid_options q = q.options.filter fun o => o ≠ "") ∧
    (∀ (s : SessionState) (f : QuestionRecord → List String),
      feedbackCorrect
        { s with questions := s.questions.map fun q => { q with options := f q } } =
      feedbackCorrect s) := by
  refine ⟨fun _ => rfl, ?_⟩
  intro s f
  unfold feedbackCorrect currentRecord
  simp only [getD_map_options_answer]

theorem digitC_toNat {d : Nat} (hd : d < 10) : (digitC d).toNat = 48 + d := by
  interval_cases d <;> decide

theorem parseDec_append (xs : List Char) (c : Char) :
    parseDec (xs ++ [c]) = parseDec xs * 10 + (c.toNat - 48) := by
  unfold parseDec
  rw [List.foldl_append]
  rfl

theorem parseDec_toDecAux :
    ∀ (fuel n : Nat), n < 10 ^ fuel → parseDec (toDecAux fuel n) = n := by
  intro fuel
  induction fuel with
  | zero =>
      intro n h
      interval_cases n
      rfl
  | succ f ih =>
      intro n h
      by_cases h10 : n < 10
      · unfold toDecAux
        rw [if_pos h10]
        have hdig : (digitC n).toNat = 48 + n := digitC_toNat h10
        show 0 * 10 + ((digitC n).toNat - 48) = n
        omega
      · unfold toDecAux
        rw [if_neg h10, parseDec_append]
        have hdiv : n / 10 < 10 ^ f := by
          have hpow : 10 ^ (f + 1) = 10 ^ f * 10 := pow_succ 10 f
          rw [hpow, Nat.mul_comm] at h
          exact Nat.div_lt_of_lt_mul h
        rw [ih _ hdiv]
        have hm : (digitC (n % 10)).toNat = 48 + n % 10 :=
          digitC_toNat (Nat.mod_lt _ (by norm_num))
        have hrec := Nat.div_add_mod n 10
        omega

theorem parseDec_toDec (n : Nat) : parseDec (toDec n) = n := by
  apply parseDec_toDecAux
  calc n < 10 ^ n := Nat.lt_pow_self (by norm_num) n
    _ ≤ 10 ^ (n + 1) := Nat.pow_le_pow_right (by norm_num) (Nat.le_succ n)

theorem toDecAux_digits :
    ∀ (fuel n : Nat) (c : Char), c ∈ toDecAux fuel n → isDigitC c = true := by
  intro fuel
  induction fuel with
  | zero => intro n c hc; simp [toDecAux] at hc
  | succ f ih =>
      intro n c hc
      unfold toDecAux at hc
      by_cases h10 : n < 10
      · rw [if_pos h10] at hc
        simp at hc
        subst hc
        have := digitC_toNat h10
        unfold isDigitC
        rw [this]
        simp
        omega
      · rw [if_neg h10] at hc
        rcases List.mem_append.mp hc with hm | hm
        · exact ih _ c hm
        · simp at hm
          subst hm
          have := digitC_toNat (Nat.mod_lt n (show 0 < 10 by norm_num))
          unfold isDigitC
          rw [this]
          simp
          omega

theorem digit_ne_space {c : Char} (h : isDigitC c = true) : ¬ c = ' ' := by
  intro hc
  subst hc
  simp [isDigitC] at h

theorem splitSp_cons (c : Char) (rest : List Char) :
    splitSp (c :: rest) =
      if c = ' ' then [] :: splitSp rest
      else
        match splitSp rest with
        | h :: t => (c :: h) :: t
        | [] => [[c]] := rfl

theorem splitSp_nospace :
    ∀ s : List Char, (∀ c ∈ s, ¬ c = ' ') → splitSp s = [s] := by
  intro s
  induction s with
  | nil => intro _; rfl
  | cons c rest ih =>
      intro h
      have hc : ¬ c = ' ' := h c (List.mem_cons_self c rest)
      rw [splitSp_cons, ih (fun d hd => h d (List.mem_cons_of_mem _ hd)), if_neg hc]

theorem splitSp_append_space {w : List Char} (hw : ∀ c ∈ w, ¬ c = ' ')
    (ds : List Char) : splitSp (w ++ ' ' :: ds) = w :: splitSp ds := by
  induction w with
  | nil => rw [List.nil_append, splitSp_cons, if_pos rfl]
  | cons c w' ih =>
      have hc : ¬ c = ' ' := hw c (List.mem_cons_self c w')
      have h' : ∀ d ∈ w', ¬ d = ' ' := fun d hd => hw d (List.mem_cons_of_mem _ hd)
      rw [List.cons_append, splitSp_cons, ih h', if_neg hc]

theorem splitSp_label (i : Nat) :
    splitSp (questionLabel i) = ["Question".toList, toDec (i + 1)] := by
  have hq : questionLabel i = "Question".toList ++ ' ' :: toDec (i + 1) := rfl
  have hds : splitSp (toDec (i + 1)) = [toDec (i + 1)] :=
    splitSp_nospace (toDec (i + 1))
      (fun c hc => digit_ne_space (toDecAux_digits _ _ c hc))
  rw [hq, splitSp_append_space (by decide), hds]

theorem jump_to_question_label (s : SessionState) (i : Nat) :
    jump_to_question s (questionLabel i) =
      { s with current_question := i, state := Phase.quiz_started } := by
  unfold jump_to_question
  rw [splitSp_label]
  have hget : (["Question".toList, toDec (i + 1)].getD 1 []) = toDec (i + 1) := rfl
  rw [hget, parseDec_toDec]
  simp

/-- C3: once the store is non-empty, every session operation preserves
`currentIndex < len(questions)`: submitting an answer leaves the index
unchanged, the advance button never increments past the last index, and
the jump handler, fed any label the question selectbox offers (one per
existing question), sets the index to that existing question's. -/
theorem c3_theorem (s : SessionState) (h : indexInv s) :
    (∀ choice, indexInv (submitAnswer s choice)) ∧
    indexInv (advance s) ∧
    (∀ i, i < s.questions.length →
      indexInv (jump_to_question s (questionLabel i))) := by
  refine ⟨fun choice hne => h hne, ?_, fun i hi => ?_⟩
  · unfold advance
    by_cases hl : s.current_question + 1 = s.questions.length
    · rw [if_pos hl]
      intro hne
      exact h hne
    · rw [if_neg hl]
      intro hne
      show s.current_question + 1 < s.questions.length
      have := h hne
      omega
  · rw [jump_to_question_label]
    intro _
    exact hi

/-- C3 witness: the operations applied to a concrete loaded session. -/
theorem c3_witness :
    indexInv ⟨Phase.quiz_started, [⟨"2+2?", ["3", "4"], "4"⟩], 0, []⟩ ∧
    indexInv (submitAnswer ⟨Phase.quiz_started, [⟨"2+2?", ["3", "4"], "4"⟩], 0, []⟩ "4") ∧
    indexInv (advance ⟨Phase.quiz_started, [⟨"2+2?", ["3", "4"], "4"⟩], 0, []⟩) ∧
    indexInv (jump_to_question ⟨Phase.quiz_started, [⟨"2+2?", ["3", "4"], "4"⟩], 0, []⟩
      (questionLabel 0)) := by
  have hinv : indexInv ⟨Phase.quiz_started, [⟨"2+2?", ["3", "4"], "4"⟩], 0, []⟩ :=
    fun _ => by decide
  have h := c3_theorem ⟨Phase.quiz_started, [⟨"2+2?", ["3", "4"], "4"⟩], 0, []⟩ hinv
  exact ⟨hinv, h.1 "4", h.2.1, h.2.2 0 (by decide)⟩

/-- C4: from the feedback phase, the displayed correctness is the exact
string equality between the stored answer at the current index and the
record's `answerText`; the advance button moves to `quiz_started` at
index+1 while another question remains, and from the last question it
moves to `finished` with the index unchanged — never wrapping past the
bounds. -/
theorem c4_theorem (s : SessionState) (_hphase : s.state = Phase.show_feedback)
    (hbound : s.current_question < s.questions.length)
    (a : String) (ha : dictGet s.user_answers s.current_question = some a) :
    feedbackCorrect s = (a == (currentRecord s).answer) ∧
    (s.current_question + 1 < s.questions.length →
      (advance s).state = Phase.quiz_started ∧
      (advance s).current_question = s.current_question + 1) ∧
    (s.current_question + 1 = s.questions.length →
      (advance s).state = Phase.finished ∧
      (advance s).current_question = s.current_question) ∧
    (advance s).current_question < (advance s).questions.length := by
  refine ⟨?_, ?_, ?_, ?_⟩
  · unfold feedbackCorrect
    rw [ha]
    rfl
  · intro hlt
    unfold advance
    rw [if_neg (by omega)]
    exact ⟨rfl, rfl⟩
  · intro heq
    unfold advance
    rw [if_pos heq]
    exact ⟨rfl, rfl⟩
  · unfold advance
    by_cases hl : s.current_question + 1 = s.questions.length
    · rw [if_pos hl]
      exact hbound
    · rw [if_neg hl]
      show s.current_question + 1 < s.questions.length
      omega

/-- C4 witness: a concrete feedback state on the last (only) question. -/
theorem c4_witness :
    feedbackCorrect ⟨Phase.show_feedback, [⟨"2+2?", ["3", "4"], "4"⟩], 0, [(0, "4")]⟩ =
      ("4" == (currentRecord
        ⟨Phase.show_feedback, [⟨"2+2?", ["3", "4"], "4"⟩], 0, [(0, "4")]⟩).answer) ∧
    (advance ⟨Phase.show_feedback, [⟨"2+2?", ["3", "4"], "4"⟩], 0, [(0, "4")]⟩).state =
      Phase.finished ∧
    (advance ⟨Phase.show_feedback, [⟨"2+2?", ["3", "4"], "4"⟩], 0, [(0, "4")]⟩).current_question =
      0 := by
  have h := c4_theorem ⟨Phase.show_feedback, [⟨"2+2?", ["3", "4"], "4"⟩], 0, [(0, "4")]⟩
    rfl (by decide) "4" rfl
  exact ⟨h.1, (h.2.2.1 rfl).1, (h.2.2.1 rfl).2⟩

/-- C6: jumping to a valid index `i` lands in `quiz_started` with
`currentIndex = i` and the answer ledger untouched; jumping to `i` again
with no intervening submit changes nothing; a previously stored answer for
`i` is still readable and, when it occurs among the valid options, it is
the preselected radio choice. -/
theorem c6_theorem (s : SessionState) (i : Nat) (_hi : i < s.questions.length) :
    (jump_to_question s (questionLabel i)).state = Phase.quiz_started ∧
    (jump_to_question s (questionLabel i)).current_question = i ∧
    (jump_to_question s (questionLabel i)).user_answers = s.user_answers ∧
    jump_to_question (jump_to_question s (questionLabel i)) (questionLabel i) =
      jump_to_question s (questionLabel i) ∧
    ∀ a, dictGet s.user_answers i = some a →
      dictGet (jump_to_question s (questionLabel i)).user_answers i = some a ∧
      (a ∈ valid_options (currentRecord (jump_to_question s (questionLabel i))) →
        preselectIndex (jump_to_question s (questionLabel i)) =
          (valid_options (currentRecord (jump_to_question s (questionLabel i)))).indexOf a) := by
  rw [jump_to_question_label, jump_to_question_label]
  refine ⟨rfl, rfl, rfl, rfl, ?_⟩
  intro a ha
  refine ⟨ha, fun hmem => ?_⟩
  unfold preselectIndex
  simp only [ha]
  rw [if_pos hmem]

/-- C6 witness: a concrete jump to an already-answered question. -/
theorem c6_witness :
    (jump_to_question ⟨Phase.show_feedback, [⟨"2+2?", ["3", "4"], "4"⟩], 0, [(0, "4")]⟩
      (questionLabel 0)).state = Phase.quiz_started ∧
    (jump_to_question ⟨Phase.show_feedback, [⟨"2+2?", ["3", "4"], "4"⟩], 0, [(0, "4")]⟩
      (questionLabel 0)).current_question = 0 ∧
    (jump_to_question ⟨Phase.show_feedback, [⟨"2+2?", ["3", "4"], "4"⟩], 0, [(0, "4")]⟩
      (questionLabel 0)).user_answers = [(0, "4")] ∧
    jump_to_question (jump_to_question
      ⟨Phase.show_feedback, [⟨"2+2?", ["3", "4"], "4"⟩], 0, [(0, "4")]⟩ (questionLabel 0))
      (questionLabel 0) =
    jump_to_question ⟨Phase.show_feedback, [⟨"2+2?", ["3", "4"], "4"⟩], 0, [(0, "4")]⟩
      (questionLabel 0) := by
  have h := c6_theorem ⟨Phase.show_feedback, [⟨"2+2?", ["3", "4"], "4"⟩], 0, [(0, "4")]⟩ 0
    (by decide)
  exact ⟨h.1, h.2.1, h.2.2.1, h.2.2.2.1⟩

theorem dictGet_append (a b : List (Nat × String)) (j : Nat) :
    dictGet (a ++ b) j =
      match dictGet a j with
      | some v => some v
      | none => dictGet b j := by
  induction a with
  | nil => rfl
  | cons kv a ih =>
      rcases kv with ⟨k, v⟩
      by_cases hk : k = j
      · simp [dictGet, hk]
      · simp [dictGet, hk, ih]

theorem dictGet_correctLedger (qs : List QuestionRecord) :
    ∀ (k j : Nat),
      dictGet (correctLedger qs k) j =
        if j < k then some ((qs.getD j dummyRecord).answer) else none := by
  intro k
  induction k with
  | zero =>
      intro j
      rw [if_neg (by omega)]
      rfl
  | succ m ih =>
      intro j
      have hsucc : correctLedger qs (m + 1) =
          correctLedger qs m ++ [(m, (qs.getD m dummyRecord).answer)] := by
        unfold correctLedger
        rw [List.range_succ, List.map_append]
        rfl
      rw [hsucc, dictGet_append, ih j]
      by_cases hj : j < m
      · rw [if_pos hj, if_pos (by omega)]
      · rw [if_neg hj]
        by_cases hje : j = m
        · subst hje
          rw [if_pos (Nat.lt_succ_self j)]
          show dictGet [(j, (qs.getD j dummyRecord).answer)] j = _
          simp [dictGet]
        · have hnj : ¬ j < m + 1 := by omega
          rw [if_neg hnj]
          show dictGet [(m, (qs.getD m dummyRecord).answer)] j = none
          have hmj : ¬ m = j := by omega
          simp [dictGet, hmj]

theorem dictSet_fresh :
    ∀ (m : List (Nat × String)) (i : Nat) (v : String),
      (∀ kv ∈ m, kv.1 ≠ i) → dictSet m i v = m ++ [(i, v)] := by
  intro m
  induction m with
  | nil => intro i v _; rfl
  | cons kv m ih =>
      intro i v h
      rcases kv with ⟨k, w⟩
      have hk : k ≠ i := h (k, w) (List.mem_cons_self _ _)
      unfold dictSet
      rw [if_neg hk, ih i v (fun kv hkv => h kv (List.mem_cons_of_mem _ hkv))]
      rfl

theorem correctLedger_keys (qs : List QuestionRecord) (k : Nat) :
    ∀ kv ∈ correctLedger qs k, kv.1 < k := by
  intro kv hkv
  unfold correctLedger at hkv
  rcases List.mem_map.mp hkv with ⟨j, hj, rfl⟩
  exact List.mem_range.mp hj

theorem answerAll_run (qs : List QuestionRecord) :
    ∀ (n : Nat) (s : SessionState),
      s.questions = qs →
      s.state = Phase.quiz_started →
      s.user_answers = correctLedger qs s.current_question →
      s.current_question + n = qs.length →
      1 ≤ n →
      (answerAllCorrect n s).state = Phase.finished ∧
      (answerAllCorrect n s).questions = qs ∧
      (answerAllCorrect n s).user_answers = correctLedger qs qs.length := by
  intro n
  induction n with
  | zero =>
      intro s _ _ _ _ h1
      omega
  | succ m ih =>
      intro s hq _hst hans hsum _h1
      have hstep : answerAllCorrect (m + 1) s =
          answerAllCorrect m (advance (submitAnswer s (currentRecord s).answer)) := rfl
      have hs1ans : (submitAnswer s (currentRecord s).answer).user_answers =
          correctLedger qs (s.current_question + 1) := by
        show dictSet s.user_answers s.current_question (currentRecord s).answer = _
        have hfresh : ∀ kv ∈ s.user_answers, kv.1 ≠ s.current_question := by
          intro kv hkv
          rw [hans] at hkv
          have := correctLedger_keys qs s.current_question kv hkv
          omega
        rw [dictSet_fresh _ _ _ hfresh]
        have hsucc : correctLedger qs (s.current_question + 1) =
            correctLedger qs s.current_question ++
              [(s.current_question, (qs.getD s.current_question dummyRecord).answer)] := by
          unfold correctLedger
          rw [List.range_succ, List.map_append]
          rfl
        rw [hsucc, hans]
        have hcur : (currentRecord s).answer =
            (qs.getD s.current_question dummyRecord).answer := by
          unfold currentRecord
          rw [hq]
        rw [hcur]
      cases m with
      | zero =>
          have hlast : s.current_question + 1 = qs.length := by omega
          have hadv : advance (submitAnswer s (currentRecord s).answer) =
              { submitAnswer s (currentRecord s).answer with state := Phase.finished } := by
            unfold advance
            rw [if_pos]
            show s.current_question + 1 = s.questions.length
            rw [hq]
            exact hlast
          rw [hstep, hadv]
          refine ⟨rfl, hq, ?_⟩
          show (submitAnswer s (currentRecord s).answer).user_answers = _
          rw [hs1ans, hlast]
      | succ m' =>
          have hnotlast : ¬ s.current_question + 1 = s.questions.length := by
            rw [hq]
            omega
          have hnotlast' :
              ¬ ((submitAnswer s (currentRecord s).answer).current_question + 1 =
                (submitAnswer s (currentRecord s).answer).questions.length) := hnotlast
          have hadv : advance (submitAnswer s (currentRecord s).answer) =
              { submitAnswer s (currentRecord s).answer with
                  current_question := s.current_question + 1,
                  state := Phase.quiz_started } := by
            unfold advance
            rw [if_neg hnotlast']
            rfl
          rw [hstep, hadv]
          exact ih _ hq rfl hs1ans (by simpa using by omega) (by omega)

theorem specScore_correctLedger (s : SessionState) (qs : List QuestionRecord)
    (hq : s.questions = qs) (hans : s.user_answers = correctLedger qs qs.length) :
    specScore s = qs.length := by
  unfold specScore
  rw [hq, hans]
  have hall : ∀ j ∈ List.range qs.length,
      (match dictGet (correctLedger qs qs.length) j with
        | some a => a == (qs.getD j dummyRecord).answer
        | none => false) = true := by
    intro j hj
    have hjlt : j < qs.length := List.mem_range.mp hj
    rw [dictGet_correctLedger qs qs.length j, if_pos hjlt]
    simp
  rw [List.filter_eq_self.mpr hall, List.length_range]

/-- C9: from a freshly loaded non-empty store (presenting index 0, empty
ledger), submitting every record's own `answerText` and advancing through
every question leaves the session `finished` with a score equal to the
number of questions. -/
theorem c9_theorem (qs : List QuestionRecord) (hne : qs ≠ []) :
    (answerAllCorrect qs.length (uploadQuiz initialState qs)).state = Phase.finished ∧
    computeScore (answerAllCorrect qs.length (uploadQuiz initialState qs)) = qs.length := by
  have hup : uploadQuiz initialState qs =
      { initialState with questions := qs, state := Phase.quiz_started } := by
    unfold uploadQuiz
    rw [if_neg hne]
  have hlen : 1 ≤ qs.length := List.length_pos.mpr hne
  have hrun := answerAll_run qs qs.length (uploadQuiz initialState qs)
    (by rw [hup]) (by rw [hup]) (by rw [hup]; rfl)
    (by rw [hup]; show 0 + qs.length = qs.length; omega) hlen
  refine ⟨hrun.1, ?_⟩
  rw [computeScore_eq_specScore]
  exact specScore_correctLedger _ qs hrun.2.1 hrun.2.2

theorem leadTicks_cons (c : Char) (s : List Char) :
    leadTicks (c :: s) = if c = btChar then leadTicks s + 1 else 0 := by
  unfold leadTicks
  by_cases hc : c = btChar
  · rw [if_pos hc]
    rw [List.takeWhile_cons_of_pos (by simp [hc])]
    simp
  · rw [if_neg hc]
    rw [List.takeWhile_cons_of_neg (by simp [hc])]
    rfl

theorem two_le_leadTicks (s : List Char) :
    2 ≤ leadTicks s ↔ ∃ rest, s = btChar :: btChar :: rest := by
  cases s with
  | nil => simp [leadTicks]
  | cons a s1 =>
      cases s1 with
      | nil =>
          rw [leadTicks_cons]
          by_cases ha : a = btChar <;> simp [ha, leadTicks]
      | cons b s2 =>
          rw [leadTicks_cons, leadTicks_cons]
          by_cases ha : a = btChar
          · by_cases hb : b = btChar
            · simp [ha, hb]
            · simp [ha, hb]
          · simp [ha]

theorem begins_fence_iff (c : Char) (s : List Char) :
    begins fence (c :: s) = true ↔ c = btChar ∧ 2 ≤ leadTicks s := by
  rw [two_le_leadTicks]
  cases s with
  | nil => simp [begins, fence]
  | cons a s1 =>
      cases s1 with
      | nil => simp [begins, fence]
      | cons b s2 =>
          constructor
          · intro h
            have h' : btChar = c ∧ btChar = a ∧ btChar = b := by
              simp [begins, fence, Bool.and_eq_true, beq_iff_eq] at h
              tauto
            exact ⟨h'.1.symm, s2, by rw [← h'.2.1, ← h'.2.2]⟩
          · rintro ⟨hc, rest, hr⟩
            obtain ⟨ha, hr2⟩ := List.cons_eq_cons.mp hr
            obtain ⟨hb, hr3⟩ := List.cons_eq_cons.mp hr2
            subst hc ha hb
            simp [begins, fence]

theorem replaceAll_fence_cons (c : Char) (s : List Char) :
    replaceAll fence (c :: s) =
      if begins fence (c :: s) then replaceAll fence (s.drop 2)
      else c :: replaceAll fence s :=
  replaceAll_cons btChar [btChar, btChar] c s

theorem leadTicks_replaceAll_fence :
    ∀ s : List Char, leadTicks (replaceAll fence s) ≤ leadTicks s ∧
      leadTicks (replaceAll fence s) ≤ 2 := by
  intro s
  obtain ⟨n, hn⟩ : ∃ n, s.length ≤ n := ⟨s.length, le_refl _⟩
  induction n generalizing s with
  | zero =>
      have hs : s = [] := by
        cases s with
        | nil => rfl
        | cons c s' => simp at hn
      subst hs
      simp [replaceAll_nil, leadTicks]
  | succ n ih =>
      cases s with
      | nil => simp [replaceAll_nil, leadTicks]
      | cons c s' =>
          rw [replaceAll_fence_cons]
          by_cases hb : begins fence (c :: s') = true
          · rw [if_pos hb]
            obtain ⟨hc, hlt⟩ := (begins_fence_iff c s').mp hb
            have hlen : (s'.drop 2).length ≤ n := by
              have := List.length_drop 2 s'
              simp at hn
              omega
            have hih := ih (s'.drop 2) hlen
            constructor
            · have : 2 ≤ leadTicks (c :: s') := by
                rw [leadTicks_cons, if_pos hc]
                omega
              omega
            · exact hih.2
          · rw [if_neg hb]
            by_cases hc : c = btChar
            · have hlt : leadTicks s' ≤ 1 := by
                by_contra hgt
                exact hb ((begins_fence_iff c s').mpr ⟨hc, by omega⟩)
              have hlen : s'.length ≤ n := by simp at hn; omega
              have hih := ih s' hlen
              rw [leadTicks_cons, if_pos hc, leadTicks_cons, if_pos hc]
              omega
            · rw [leadTicks_cons, if_neg hc]
              omega

theorem replaceAll_fence_no_fence :
    ∀ (s x y : List Char), replaceAll fence s ≠ x ++ fence ++ y := by
  intro s
  obtain ⟨n, hn⟩ : ∃ n, s.length ≤ n := ⟨s.length, le_refl _⟩
  induction n generalizing s with
  | zero =>
      have hs : s = [] := by
        cases s with
        | nil => rfl
        | cons c s' => simp at hn
      subst hs
      intro x y h
      rw [replaceAll_nil] at h
      have := congrArg List.length h
      simp [fence] at this
      omega
  | succ n ih =>
      cases s with
      | nil =>
          intro x y h
          rw [replaceAll_nil] at h
          have := congrArg List.length h
          simp [fence] at this
          omega
      | cons c s' =>
          intro x y h
          rw [replaceAll_fence_cons] at h
          by_cases hb : begins fence (c :: s') = true
          · rw [if_pos hb] at h
            have hlen : (s'.drop 2).length ≤ n := by
              have := List.length_drop 2 s'
              simp at hn
              omega
            exact ih (s'.drop 2) hlen x y h
          · rw [if_neg hb] at h
            have hlen : s'.length ≤ n := by simp at hn; omega
            cases x with
            | nil =>
                have hfy : c :: replaceAll fence s' =
                    btChar :: btChar :: btChar :: y := h
                have hc : c = btChar := (List.cons_eq_cons.mp hfy).1
                have htail : replaceAll fence s' = btChar :: btChar :: y :=
                  (List.cons_eq_cons.mp hfy).2
                have h2 : 2 ≤ leadTicks (replaceAll fence s') := by
                  rw [htail, leadTicks_cons, leadTicks_cons]
                  simp
                have hM := (leadTicks_replaceAll_fence s').1
                exact hb ((begins_fence_iff c s').mpr ⟨hc, by omega⟩)
            | cons d x' =>
                have hdx : c :: replaceAll fence s' =
                    d :: (x' ++ fence ++ y) := h
                have htail : replaceAll fence s' = x' ++ fence ++ y :=
                  (List.cons_eq_cons.mp hdx).2
                exact ih s' hlen x' y htail

/-- C10: the cleaning on line 76 removes every occurrence of the fence
markers anywhere in the reply — no cleaned reply contains three
consecutive backticks (hence no occurrence of either removed pattern
survives) — and consequently triple backticks sitting inside a string of
the JSON payload are deleted before parsing: the stored record lacks
them. -/
theorem c10_theorem :
    (∀ (s x y : List Char), cleanReply s ≠ x ++ fence ++ y) ∧
    asRecords (parse_quiz_file_with_ai (CallOutcome.reply c10Reply)) =
      some [⟨"use  now", ["A", "B"], "A"⟩] :=
  ⟨fun s x y => replaceAll_fence_no_fence (replaceAll fenceJson (pyStrip s)) x y, rfl⟩

theorem dropWhile_append_all {p : Char → Bool} {w : List Char}
    (h : ∀ c ∈ w, p c = true) (x : List Char) :
    (w ++ x).dropWhile p = x.dropWhile p := by
  induction w with
  | nil => rfl
  | cons c w' ih =>
      rw [List.cons_append,
        List.dropWhile_cons_of_pos (h c (List.mem_cons_self c w'))]
      exact ih (fun d hd => h d (List.mem_cons_of_mem _ hd))

theorem dropWhile_all {p : Char → Bool} {w : List Char}
    (h : ∀ c ∈ w, p c = true) : w.dropWhile p = [] := by
  have := dropWhile_append_all h []
  simpa using this

theorem rstrip_append_all {p : Char → Bool} {w : List Char}
    (h : ∀ c ∈ w, p c = true) (x : List Char) :
    rstrip p (x ++ w) = rstrip p x := by
  unfold rstrip
  rw [List.reverse_append,
    dropWhile_append_all (fun c hc => h c (List.mem_reverse.mp hc))]

theorem rstrip_all {p : Char → Bool} {w : List Char}
    (h : ∀ c ∈ w, p c = true) : rstrip p w = [] := by
  have := rstrip_append_all h []
  simpa [rstrip] using this

theorem dropWhile_append_cases (p : Char → Bool) (a b : List Char) :
    (a ++ b).dropWhile p =
      if (a.dropWhile p).isEmpty then b.dropWhile p
      else a.dropWhile p ++ b := by
  induction a with
  | nil => simp
  | cons c a' ih =>
      by_cases hc : p c = true
      · rw [List.cons_append, List.dropWhile_cons_of_pos hc,
          List.dropWhile_cons_of_pos hc, ih]
      · have hc' : p c = false := by
          cases hpc : p c
          · rfl
          · exact absurd hpc hc
        rw [List.cons_append, List.dropWhile_cons_of_neg (by simp [hc']),
          List.dropWhile_cons_of_neg (by simp [hc'])]
        simp

theorem takeWhile_all (p : Char → Bool) (s : List Char) :
    ∀ c ∈ s.takeWhile p, p c = true := by
  induction s with
  | nil => simp
  | cons a s' ih =>
      by_cases ha : p a = true
      · rw [List.takeWhile_cons_of_pos ha]
        intro c hc
        rcases List.mem_cons.mp hc with rfl | hc'
        · exact ha
        · exact ih c hc'
      · rw [List.takeWhile_cons_of_neg ha]
        simp

theorem dropWhile_decomp (p : Char → Bool) (s : List Char) :
    s = s.takeWhile p ++ s.dropWhile p :=
  (List.takeWhile_append_dropWhile p s).symm

theorem rstrip_decomp (p : Char → Bool) (s : List Char) :
    s = rstrip p s ++ (s.reverse.takeWhile p).reverse := by
  unfold rstrip
  calc s = s.reverse.reverse := (List.reverse_reverse s).symm
    _ = (s.reverse.takeWhile p ++ s.reverse.dropWhile p).reverse := by
        rw [List.takeWhile_append_dropWhile]
    _ = (s.reverse.dropWhile p).reverse ++ (s.reverse.takeWhile p).reverse :=
        List.reverse_append _ _

theorem head_dropWhile_false (p : Char → Bool) :
    ∀ (s : List Char) (c : Char) (s' : List Char),
      s.dropWhile p = c :: s' → p c = false := by
  intro s
  induction s with
  | nil => intro c s' h; simp at h
  | cons a s0 ih =>
      intro c s' h
      by_cases ha : p a = true
      · rw [List.dropWhile_cons_of_pos ha] at h
        exact ih c s' h
      · have ha' : p a = false := by
          cases hpa : p a
          · rfl
          · exact absurd hpa ha
        rw [List.dropWhile_cons_of_neg (by simp [ha'])] at h
        rcases List.cons_eq_cons.mp h with ⟨rfl, -⟩
        exact ha'

theorem jsonTrim_pad_left (w : List Char) (h : ∀ c ∈ w, isJsonWs c = true)
    (x : List Char) : jsonTrim (w ++ x) = jsonTrim x := by
  unfold jsonTrim
  rw [dropWhile_append_all h]

theorem jsonTrim_pad_right (w : List Char) (h : ∀ c ∈ w, isJsonWs c = true)
    (x : List Char) : jsonTrim (x ++ w) = jsonTrim x := by
  unfold jsonTrim
  rw [dropWhile_append_cases]
  by_cases he : (x.dropWhile isJsonWs).isEmpty = true
  · rw [if_pos he]
    have hx : x.dropWhile isJsonWs = [] := by
      cases hd : x.dropWhile isJsonWs
      · rfl
      · rw [hd] at he; simp at he
    rw [hx, dropWhile_all h, rstrip_all (by simp)]
  · rw [if_neg he, rstrip_append_all h]

theorem jsonLoads_congr {a b : List Char} (h : jsonTrim a = jsonTrim b) :
    jsonLoads a = jsonLoads b := by
  unfold jsonLoads
  rw [h]

theorem getLast?_some_ne_nil {u : List Char} {c : Char}
    (h : u.getLast? = some c) : u ≠ [] := by
  intro hu
  subst hu
  simp at h

theorem getLast?_append_right {u : List Char} {c : Char} (a : List Char)
    (h : u.getLast? = some c) : (a ++ u).getLast? = some c := by
  rw [List.getLast?_append, h]
  rfl

theorem consumed_mono {s s' r : List Char} (a : List Char) (hs : s = a ++ s')
    (h : Consumed s' r) : Consumed s r := by
  obtain ⟨u, c, hu, hl, hc⟩ := h
  exact ⟨a ++ u, c, by rw [hs, hu, List.append_assoc], getLast?_append_right a hl, hc⟩

theorem consumed_single (c : Char) (r : List Char) (h : isPySpace c = false) :
    Consumed (c :: r) r := ⟨[c], c, rfl, rfl, h⟩

theorem isDigitC_not_pyspace {c : Char} (h : isDigitC c = true) :
    isPySpace c = false := by
  unfold isDigitC at h
  simp only [Bool.and_eq_true, decide_eq_true_eq] at h
  by_contra hne
  have htrue : isPySpace c = true := by
    cases hsp : isPySpace c
    · exact absurd hsp hne
    · rfl
  unfold isPySpace at htrue
  simp only [Bool.or_eq_true, Bool.and_eq_true, decide_eq_true_eq] at htrue
  omega

theorem parseStringBody_consumed :
    ∀ (s out r : List Char), parseStringBody s = some (out, r) → Consumed s r := by
  intro s
  obtain ⟨n, hn⟩ : ∃ n, s.length ≤ n := ⟨s.length, le_refl _⟩
  induction n generalizing s with
  | zero =>
      intro out r h
      cases s with
      | nil => simp [parseStringBody] at h
      | cons c rest =>
          rw [List.length_cons] at hn
          omega
  | succ n ih =>
      intro out r h
      cases s with
      | nil => simp [parseStringBody] at h
      | cons c rest =>
          unfold parseStringBody at h
          by_cases hq : c = '"'
          · rw [if_pos hq] at h
            rcases Option.some.inj h with hpair
            have hr : r = rest := (Prod.mk.injEq _ _ _ _).mp hpair |>.2.symm
            subst hq
            rw [hr]
            exact consumed_single '"' rest (by decide)
          · rw [if_neg hq] at h
            by_cases hb : c = '\\'
            · rw [if_pos hb] at h
              split at h
              · simp at h
              · rename_i e rest2
                by_cases hu : e = 'u'
                · rw [if_pos hu] at h
                  split at h
                  · rename_i h1 h2 h3 h4 rest3
                    split at h
                    · rcases Option.map_eq_some'.mp h with ⟨p, hp, hf⟩
                      have hr : r = p.2 := by
                        have := (Prod.mk.injEq _ _ _ _).mp hf
                        exact this.2.symm
                      have hlen : rest3.length ≤ n := by
                        simp only [List.length_cons] at hn
                        omega
                      have hc7 := ih rest3 hlen p.1 p.2 (by rw [hp])
                      rw [hr]
                      exact consumed_mono [c, e, h1, h2, h3, h4] rfl hc7
                    · simp at h
                  · simp at h
                · rw [if_neg hu] at h
                  split at h
                  · rcases Option.map_eq_some'.mp h with ⟨p, hp, hf⟩
                    have hr : r = p.2 := by
                      have := (Prod.mk.injEq _ _ _ _).mp hf
                      exact this.2.symm
                    have hlen : rest2.length ≤ n := by
                      simp only [List.length_cons] at hn
                      omega
                    have hc2 := ih rest2 hlen p.1 p.2 (by rw [hp])
                    rw [hr]
                    exact consumed_mono [c, e] rfl hc2
                  · simp at h
            · rw [if_neg hb] at h
              by_cases hctl : c.toNat < 32
              · rw [if_pos hctl] at h
                simp at h
              · rw [if_neg hctl] at h
                rcases Option.map_eq_some'.mp h with ⟨p, hp, hf⟩
                have hr : r = p.2 := by
                  have := (Prod.mk.injEq _ _ _ _).mp hf
                  exact this.2.symm
                have hlen : rest.length ≤ n := by
                  simp at hn
                  omega
                have hcr := ih rest hlen p.1 p.2 (by rw [hp])
                rw [hr]
                exact consumed_mono [c] rfl hcr

theorem exists_getLast? {l : List Char} (h : l ≠ []) :
    ∃ c, l.getLast? = some c := by
  cases hl : l.getLast? with
  | some c => exact ⟨c, rfl⟩
  | none => exact absurd (List.getLast?_eq_none_iff.mp hl) h

theorem getLast?_mem : ∀ (l : List Char) (c : Char), l.getLast? = some c → c ∈ l := by
  intro l
  induction l with
  | nil => intro c h; simp at h
  | cons a t ih =>
      intro c h
      cases t with
      | nil =>
          simp at h
          subst h
          exact List.mem_cons_self a []
      | cons b t' =>
          rw [List.getLast?_cons_cons] at h
          exact List.mem_cons_of_mem _ (ih c h)

theorem takeDigits_decomp :
    ∀ s : List Char, s = (takeDigits s).1 ++ (takeDigits s).2 ∧
      ∀ c ∈ (takeDigits s).1, isDigitC c = true := by
  intro s
  induction s with
  | nil => exact ⟨rfl, by simp [takeDigits]⟩
  | cons c rest ih =>
      by_cases hd : isDigitC c = true
      · have ht : takeDigits (c :: rest) =
            (c :: (takeDigits rest).1, (takeDigits rest).2) := by
          simp [takeDigits, hd]
        rw [ht]
        refine ⟨?_, ?_⟩
        · show c :: rest = c :: ((takeDigits rest).1 ++ (takeDigits rest).2)
          rw [← ih.1]
        · intro d hdm
          rcases List.mem_cons.mp hdm with rfl | hm
          · exact hd
          · exact ih.2 d hm
      · have ht : takeDigits (c :: rest) = ([], c :: rest) := by
          simp [takeDigits, hd]
        rw [ht]
        exact ⟨rfl, by simp⟩

theorem parseIntDigits_consumed :
    ∀ (s ds r : List Char), parseIntDigits s = some (ds, r) →
      s = ds ++ r ∧ ∃ c, ds.getLast? = some c ∧ isDigitC c = true := by
  intro s ds r h
  unfold parseIntDigits at h
  split at h
  · simp at h
  · rename_i c rest
    split at h
    · rename_i h0
      injection h with hpair
      injection hpair with h1 h2
      subst h1
      subst h2
      subst h0
      exact ⟨rfl, '0', rfl, by decide⟩
    · split at h
      · rename_i h0 hdig
        injection h with hpair
        injection hpair with h1 h2
        subst h1
        subst h2
        refine ⟨?_, ?_⟩
        · show c :: rest = c :: ((takeDigits rest).1 ++ (takeDigits rest).2)
          rw [← (takeDigits_decomp rest).1]
        · cases htd1 : (takeDigits rest).1 with
          | nil => exact ⟨c, rfl, hdig⟩
          | cons d t =>
              obtain ⟨e, he⟩ := exists_getLast? (show d :: t ≠ [] by simp)
              refine ⟨e, getLast?_append_right [c] he, ?_⟩
              refine (takeDigits_decomp rest).2 e ?_
              rw [htd1]
              exact getLast?_mem _ e he
      · simp at h

theorem parseFrac_decomp :
    ∀ (s fs r : List Char), parseFrac s = (fs, r) →
      s = fs ++ r ∧
      (fs = [] ∨ ∃ c, fs.getLast? = some c ∧ isDigitC c = true) := by
  intro s fs r h
  unfold parseFrac at h
  split at h
  · injection h with h1 h2
    subst h1
    subst h2
    exact ⟨rfl, Or.inl rfl⟩
  · rename_i c rest
    split at h
    · split at h
      · injection h with h1 h2
        subst h1
        subst h2
        exact ⟨rfl, Or.inl rfl⟩
      · rename_i hpair ds0 r0 hnotnil heq
        injection h with h1 h2
        subst h1
        subst h2
        have hds0 : ds0 ≠ [] := fun hnil => hnotnil (by rw [hnil])
        have hdec := takeDigits_decomp rest
        rw [heq] at hdec
        refine ⟨?_, Or.inr ?_⟩
        · show c :: rest = c :: (ds0 ++ r0)
          rw [← hdec.1]
        · obtain ⟨e, he⟩ := exists_getLast? hds0
          exact ⟨e, getLast?_append_right [c] he, hdec.2 e (getLast?_mem _ e he)⟩
    · injection h with h1 h2
      subst h1
      subst h2
      exact ⟨rfl, Or.inl rfl⟩

theorem parseExp_decomp :
    ∀ (s es r : List Char), parseExp s = (es, r) →
      s = es ++ r ∧
      (es = [] ∨ ∃ c, es.getLast? = some c ∧ isDigitC c = true) := by
  intro s es r h
  unfold parseExp at h
  split at h
  · injection h with h1 h2
    subst h1
    subst h2
    exact ⟨rfl, Or.inl rfl⟩
  · rename_i e rest
    split at h
    · split at h
      · injection h with h1 h2
        subst h1
        subst h2
        exact ⟨rfl, Or.inl rfl⟩
      · rename_i s2 rest2
        split at h
        · split at h
          · injection h with h1 h2
            subst h1
            subst h2
            exact ⟨rfl, Or.inl rfl⟩
          · rename_i hpair ds0 r0 hnotnil heq
            injection h with h1 h2
            subst h1
            subst h2
            have hds0 : ds0 ≠ [] := fun hnil => hnotnil (by rw [hnil])
            have hdec := takeDigits_decomp rest2
            rw [heq] at hdec
            refine ⟨?_, Or.inr ?_⟩
            · show e :: s2 :: rest2 = e :: s2 :: (ds0 ++ r0)
              rw [← hdec.1]
            · obtain ⟨c, hc⟩ := exists_getLast? hds0
              exact ⟨c, getLast?_append_right [e, s2] hc,
                hdec.2 c (getLast?_mem _ c hc)⟩
        · split at h
          · injection h with h1 h2
            subst h1
            subst h2
            exact ⟨rfl, Or.inl rfl⟩
          · rename_i hpair ds0 r0 hnotnil heq
            injection h with h1 h2
            subst h1
            subst h2
            have hds0 : ds0 ≠ [] := fun hnil => hnotnil (by rw [hnil])
            have hdec := takeDigits_decomp (s2 :: rest2)
            rw [heq] at hdec
            refine ⟨?_, Or.inr ?_⟩
            · show e :: s2 :: rest2 = e :: (ds0 ++ r0)
              rw [← hdec.1]
            · obtain ⟨c, hc⟩ := exists_getLast? hds0
              exact ⟨c, getLast?_append_right [e] hc,
                hdec.2 c (getLast?_mem _ c hc)⟩
    · injection h with h1 h2
      subst h1
      subst h2
      exact ⟨rfl, Or.inl rfl⟩

theorem num_assemble (u0 r0 : List Char) (e0 : Char)
    (hl0 : u0.getLast? = some e0) (hd0 : isDigitC e0 = true) :
    u0 ++ r0 =
      (u0 ++ (parseFrac r0).1 ++ (parseExp (parseFrac r0).2).1) ++
        (parseExp (parseFrac r0).2).2 ∧
    ∃ c, (u0 ++ (parseFrac r0).1 ++ (parseExp (parseFrac r0).2).1).getLast? =
        some c ∧ isPySpace c = false := by
  obtain ⟨hfr, hfor⟩ := parseFrac_decomp r0 (parseFrac r0).1 (parseFrac r0).2 rfl
  obtain ⟨hex, heor⟩ := parseExp_decomp (parseFrac r0).2
    (parseExp (parseFrac r0).2).1 (parseExp (parseFrac r0).2).2 rfl
  constructor
  · conv_lhs => rw [hfr, hex]
    simp [List.append_assoc]
  · rcases heor with hpe | ⟨e, he, hdig⟩
    · rw [hpe, List.append_nil]
      rcases hfor with hpf | ⟨e, he, hdig⟩
      · rw [hpf, List.append_nil]
        exact ⟨e0, hl0, isDigitC_not_pyspace hd0⟩
      · exact ⟨e, getLast?_append_right u0 he, isDigitC_not_pyspace hdig⟩
    · exact ⟨e, getLast?_append_right (u0 ++ (parseFrac r0).1) he,
        isDigitC_not_pyspace hdig⟩

theorem parseNumber_consumed :
    ∀ (s ds r : List Char), parseNumber s = some (ds, r) → Consumed s r := by
  intro s ds r h
  unfold parseNumber at h
  split at h
  · simp at h
  · rename_i c rest
    split at h
    · rename_i hminus
      split at h
      · rename_i ds0 r0 heq
        injection h with hpair
        injection hpair with h1 h2
        obtain ⟨hint, e0, hl0, hd0⟩ := parseIntDigits_consumed _ _ _ heq
        have hl0' : (c :: ds0).getLast? = some e0 := getLast?_append_right [c] hl0
        obtain ⟨hassm, cc, hcc, hsp⟩ := num_assemble (c :: ds0) r0 e0 hl0' hd0
        refine ⟨c :: ds0 ++ (parseFrac r0).1 ++ (parseExp (parseFrac r0).2).1,
          cc, ?_, hcc, hsp⟩
        rw [← h2]
        show c :: rest = _
        rw [hint]
        exact hassm
      · simp at h
    · split at h
      · rename_i ds0 r0 heq
        injection h with hpair
        injection hpair with h1 h2
        obtain ⟨hint, e0, hl0, hd0⟩ := parseIntDigits_consumed _ _ _ heq
        obtain ⟨hassm, cc, hcc, hsp⟩ := num_assemble ds0 r0 e0 hl0 hd0
        refine ⟨ds0 ++ (parseFrac r0).1 ++ (parseExp (parseFrac r0).2).1,
          cc, ?_, hcc, hsp⟩
        rw [← h2]
        show c :: rest = _
        rw [hint]
        exact hassm
      · simp at h

theorem parseVal_succ_cons (n : Nat) (c : Char) (s : List Char) :
    parseVal (n + 1) (c :: s) =
      if c = '"' then (parseStringBody s).map fun p => (Json.str p.1, p.2)
      else if c = '[' then
        match s.dropWhile isJsonWs with
        | ']' :: r => some (Json.arr [], r)
        | s1 => (parseItems n s1).map fun p => (Json.arr p.1, p.2)
      else if c = '{' then
        match s.dropWhile isJsonWs with
        | '}' :: r => some (Json.obj [], r)
        | s1 => (parseMembers n s1).map fun p => (Json.obj p.1, p.2)
      else if c = 't' then
        match s with
        | 'r' :: 'u' :: 'e' :: r => some (Json.bool true, r)
        | _ => none
      else if c = 'f' then
        match s with
        | 'a' :: 'l' :: 's' :: 'e' :: r => some (Json.bool false, r)
        | _ => none
      else if c = 'n' then
        match s with
        | 'u' :: 'l' :: 'l' :: r => some (Json.null, r)
        | _ => none
      else if c = '-' || isDigitC c then
        (parseNumber (c :: s)).map fun p => (Json.num p.1, p.2)
      else none := rfl

theorem parser_consumed :
    ∀ fuel : Nat,
      (∀ s v r, parseVal fuel s = some (v, r) → Consumed s r) ∧
      (∀ s vs r, parseItems fuel s = some (vs, r) → Consumed s r) ∧
      (∀ s fs r, parseMembers fuel s = some (fs, r) → Consumed s r) := by
  intro fuel
  induction fuel with
  | zero =>
      refine ⟨?_, ?_, ?_⟩
      · intro s v r h
        simp [parseVal] at h
      · intro s vs r h
        simp [parseItems] at h
      · intro s fs r h
        simp [parseMembers] at h
  | succ n ih =>
      obtain ⟨ihV, ihI, ihM⟩ := ih
      refine ⟨?_, ?_, ?_⟩
      · intro s v r h
        cases s with
        | nil => simp [parseVal] at h
        | cons c s0 =>
            rw [parseVal_succ_cons] at h
            split at h
            · rcases Option.map_eq_some'.mp h with ⟨p, hp, hf⟩
              have hr : r = p.2 := ((Prod.mk.injEq _ _ _ _).mp hf).2.symm
              subst hr
              exact consumed_mono [c] rfl (parseStringBody_consumed s0 p.1 p.2 hp)
            · split at h
              · split at h
                · rename_i r2 heq
                  injection h with hpair
                  injection hpair with h1 h2
                  subst h2
                  have hdec := dropWhile_decomp isJsonWs s0
                  rw [heq] at hdec
                  refine consumed_mono (c :: s0.takeWhile isJsonWs) ?_
                    (consumed_single ']' r2 (by decide))
                  rw [List.cons_append, ← hdec]
                · rcases Option.map_eq_some'.mp h with ⟨p, hp, hf⟩
                  have hr : r = p.2 := ((Prod.mk.injEq _ _ _ _).mp hf).2.symm
                  subst hr
                  have hdec := dropWhile_decomp isJsonWs s0
                  exact consumed_mono (c :: s0.takeWhile isJsonWs)
                    (by rw [List.cons_append, ← hdec]) (ihI _ p.1 p.2 hp)
              · split at h
                · split at h
                  · rename_i r2 heq
                    injection h with hpair
                    injection hpair with h1 h2
                    subst h2
                    have hdec := dropWhile_decomp isJsonWs s0
                    rw [heq] at hdec
                    refine consumed_mono (c :: s0.takeWhile isJsonWs) ?_
                      (consumed_single '}' r2 (by decide))
                    rw [List.cons_append, ← hdec]
                  · rcases Option.map_eq_some'.mp h with ⟨p, hp, hf⟩
                    have hr : r = p.2 := ((Prod.mk.injEq _ _ _ _).mp hf).2.symm
                    subst hr
                    have hdec := dropWhile_decomp isJsonWs s0
                    exact consumed_mono (c :: s0.takeWhile isJsonWs)
                      (by rw [List.cons_append, ← hdec]) (ihM _ p.1 p.2 hp)
                · split at h
                  · split at h
                    · rename_i r2
                      injection h with hpair
                      injection hpair with h1 h2
                      subst h2
                      exact consumed_mono [c, 'r', 'u'] rfl
                        (consumed_single 'e' _ (by decide))
                    · simp at h
                  · split at h
                    · split at h
                      · rename_i r2
                        injection h with hpair
                        injection hpair with h1 h2
                        subst h2
                        exact consumed_mono [c, 'a', 'l', 's'] rfl
                          (consumed_single 'e' _ (by decide))
                      · simp at h
                    · split at h
                      · split at h
                        · rename_i r2
                          injection h with hpair
                          injection hpair with h1 h2
                          subst h2
                          exact consumed_mono [c, 'u', 'l'] rfl
                            (consumed_single 'l' _ (by decide))
                        · simp at h
                      · split at h
                        · rcases Option.map_eq_some'.mp h with ⟨p, hp, hf⟩
                          have hr : r = p.2 :=
                            ((Prod.mk.injEq _ _ _ _).mp hf).2.symm
                          subst hr
                          exact parseNumber_consumed (c :: s0) p.1 p.2 hp
                        · simp at h
      · intro s vs r h
        unfold parseItems at h
        split at h
        · rename_i v0 r0 heq
          obtain ⟨u0, c0, hu0, hl0, hc0⟩ := ihV s v0 r0 heq
          split at h
          · rename_i r2 heq2
            rcases Option.map_eq_some'.mp h with ⟨p, hp, hf⟩
            have hr : r = p.2 := ((Prod.mk.injEq _ _ _ _).mp hf).2.symm
            subst hr
            have hdec1 := dropWhile_decomp isJsonWs r0
            rw [heq2] at hdec1
            have hdec2 := dropWhile_decomp isJsonWs r2
            have hcons := ihI _ p.1 p.2 hp
            refine consumed_mono
              (u0 ++ r0.takeWhile isJsonWs ++ ',' :: r2.takeWhile isJsonWs) ?_ hcons
            conv_lhs => rw [hu0, hdec1, hdec2]
            simp [List.append_assoc]
          · rename_i r2 heq2
            injection h with hpair
            injection hpair with h1 h2
            subst h2
            have hdec1 := dropWhile_decomp isJsonWs r0
            rw [heq2] at hdec1
            refine consumed_mono (u0 ++ r0.takeWhile isJsonWs) ?_
              (consumed_single ']' r2 (by decide))
            conv_lhs => rw [hu0, hdec1]
            simp [List.append_assoc]
          · simp at h
        · simp at h
      · intro s fs r h
        unfold parseMembers at h
        split at h
        · rename_i s1
          split at h
          · rename_i key r1 heq
            obtain ⟨u0, c0, hu0, hl0, hc0⟩ := parseStringBody_consumed s1 key r1 heq
            split at h
            · rename_i r2 heq2
              split at h
              · rename_i v0 r3 heq3
                obtain ⟨u1, c1, hu1, hl1, hc1⟩ :=
                  ihV (r2.dropWhile isJsonWs) v0 r3 heq3
                split at h
                · rename_i r4 heq4
                  rcases Option.map_eq_some'.mp h with ⟨p, hp, hf⟩
                  have hr : r = p.2 := ((Prod.mk.injEq _ _ _ _).mp hf).2.symm
                  subst hr
                  have hcons := ihM _ p.1 p.2 hp
                  have hdec1 := dropWhile_decomp isJsonWs r1
                  rw [heq2] at hdec1
                  have hdec2 := dropWhile_decomp isJsonWs r2
                  have hdec3 := dropWhile_decomp isJsonWs r3
                  rw [heq4] at hdec3
                  have hdec4 := dropWhile_decomp isJsonWs r4
                  refine consumed_mono
                    ('"' :: u0 ++ r1.takeWhile isJsonWs ++
                      ':' :: r2.takeWhile isJsonWs ++ u1 ++
                      r3.takeWhile isJsonWs ++ ',' :: r4.takeWhile isJsonWs)
                    ?_ hcons
                  conv_lhs => rw [hu0, hdec1, hdec2, hu1, hdec3, hdec4]
                  simp [List.append_assoc]
                · rename_i r4 heq4
                  injection h with hpair
                  injection hpair with h1 h2
                  subst h2
                  have hdec1 := dropWhile_decomp isJsonWs r1
                  rw [heq2] at hdec1
                  have hdec2 := dropWhile_decomp isJsonWs r2
                  have hdec3 := dropWhile_decomp isJsonWs r3
                  rw [heq4] at hdec3
                  refine consumed_mono
                    ('"' :: u0 ++ r1.takeWhile isJsonWs ++
                      ':' :: r2.takeWhile isJsonWs ++ u1 ++ r3.takeWhile isJsonWs)
                    ?_ (consumed_single '}' r4 (by decide))
                  conv_lhs => rw [hu0, hdec1, hdec2, hu1, hdec3]
                  simp [List.append_assoc]
                · simp at h
              · simp at h
            · simp at h
          · simp at h
        · simp at h

theorem parseVal_head (fuel : Nat) (s : List Char) (v : Json) (r : List Char)
    (h : parseVal fuel s = some (v, r)) :
    ∃ c s0, s = c :: s0 ∧ isPySpace c = false := by
  cases fuel with
  | zero => simp [parseVal] at h
  | succ n =>
      cases s with
      | nil => simp [parseVal] at h
      | cons c s0 =>
          refine ⟨c, s0, rfl, ?_⟩
          by_contra hne
          have hsp : isPySpace c = true := by
            cases hx : isPySpace c
            · exact absurd hx hne
            · rfl
          rw [parseVal_succ_cons] at h
          split at h
          · rename_i hc
            subst hc
            exact absurd hsp (by decide)
          · split at h
            · rename_i hc
              subst hc
              exact absurd hsp (by decide)
            · split at h
              · rename_i hc
                subst hc
                exact absurd hsp (by decide)
              · split at h
                · rename_i hc
                  subst hc
                  exact absurd hsp (by decide)
                · split at h
                  · rename_i hc
                    subst hc
                    exact absurd hsp (by decide)
                  · split at h
                    · rename_i hc
                      subst hc
                      exact absurd hsp (by decide)
                    · split at h
                      · rename_i hcond
                        simp only [Bool.or_eq_true, decide_eq_true_eq] at hcond
                        rcases hcond with rfl | hd
                        · exact absurd hsp (by decide)
                        · rw [isDigitC_not_pyspace hd] at hsp
                          exact absurd hsp (by simp)
                      · simp at h

theorem isJsonWs_pyspace {c : Char} (h : isJsonWs c = true) :
    isPySpace c = true := by
  unfold isJsonWs at h
  unfold isPySpace
  simp only [Bool.or_eq_true, Bool.and_eq_true, decide_eq_true_eq] at h ⊢
  omega

theorem jsonWs_not_in_pats {c : Char} (hc : isJsonWs c = true) :
    c ∉ fenceJson ∧ c ∉ fence := by
  constructor <;> intro hm
  · simp [fenceJson] at hm
    rcases hm with rfl | rfl | rfl | rfl | rfl | rfl | rfl <;>
      exact absurd hc (by decide)
  · simp [fence] at hm
    rcases hm with rfl | rfl | rfl <;> exact absurd hc (by decide)

theorem rstrip_no_strip {p : Char → Bool} {m : List Char} {c : Char}
    (hl : m.getLast? = some c) (hc : p c = false) : rstrip p m = m := by
  unfold rstrip
  have hhead : m.reverse.head? = some c := by rw [List.head?_reverse, hl]
  cases hrev : m.reverse with
  | nil => rw [hrev] at hhead; simp at hhead
  | cons d tl =>
      rw [hrev] at hhead
      have hd : d = c := by
        simp at hhead
        exact hhead
      subst hd
      rw [List.dropWhile_cons_of_neg (by simp [hc]), ← hrev, List.reverse_reverse]

theorem jsonTrim_decomp (t : List Char) :
    ∃ w1 w2, t = w1 ++ (jsonTrim t ++ w2) ∧
      (∀ c ∈ w1, isJsonWs c = true) ∧ (∀ c ∈ w2, isJsonWs c = true) := by
  refine ⟨t.takeWhile isJsonWs,
    ((t.dropWhile isJsonWs).reverse.takeWhile isJsonWs).reverse, ?_, ?_, ?_⟩
  · conv_lhs => rw [dropWhile_decomp isJsonWs t]
    congr 1
    exact rstrip_decomp isJsonWs (t.dropWhile isJsonWs)
  · exact fun c hc => List.mem_takeWhile_imp hc
  · intro c hc
    exact List.mem_takeWhile_imp (List.mem_reverse.mp hc)

theorem jsonLoads_some_elim {t : List Char} {v : Json}
    (h : jsonLoads t = some v) :
    ∃ v0, parseVal (2 * (jsonTrim t).length + 2) (jsonTrim t) = some (v0, []) := by
  unfold jsonLoads at h
  split at h
  · rename_i p v0 r0 heq
    split at h
    · rename_i hnil
      subst hnil
      exact ⟨v0, heq⟩
    · simp at h
  · simp at h

theorem pyStrip_eq_jsonTrim_of_valid {t : List Char} {v : Json}
    (h : jsonLoads t = some v) : pyStrip t = jsonTrim t := by
  obtain ⟨v0, heq⟩ := jsonLoads_some_elim h
  obtain ⟨ch, s0', hhead, hchsp⟩ := parseVal_head _ _ _ _ heq
  obtain ⟨u, cl, hu, hl, hcl⟩ := (parser_consumed _).1 _ _ _ heq
  rw [List.append_nil] at hu
  have hlast : (jsonTrim t).getLast? = some cl := by rw [hu]; exact hl
  obtain ⟨w1, w2, hdec, hw1, hw2⟩ := jsonTrim_decomp t
  unfold pyStrip
  have hstep1 : t.dropWhile isPySpace = jsonTrim t ++ w2 := by
    conv_lhs => rw [hdec]
    rw [dropWhile_append_all (fun c hc => isJsonWs_pyspace (hw1 c hc))]
    rw [hhead, List.cons_append]
    exact List.dropWhile_cons_of_neg (by simp [hchsp])
  rw [hstep1, rstrip_append_all (fun c hc => isJsonWs_pyspace (hw2 c hc))]
  exact rstrip_no_strip hlast hcl

theorem begins_refl_append :
    ∀ (pat x : List Char), begins pat (pat ++ x) = true := by
  intro pat
  induction pat with
  | nil => intro x; rfl
  | cons p ps ih =>
      intro x
      simp [begins, ih x]

theorem replaceAll_self_prefix (p : Char) (ps x : List Char) :
    replaceAll (p :: ps) ((p :: ps) ++ x) = replaceAll (p :: ps) x := by
  rw [List.cons_append, replaceAll_cons,
    if_pos (by simpa using begins_refl_append (p :: ps) x)]
  rw [List.drop_left]

theorem pyStrip_wrapFence (t : List Char) : pyStrip (wrapFence t) = wrapFence t := by
  unfold pyStrip
  have hhead : wrapFence t =
      btChar :: ([btChar, btChar, 'j', 's', 'o', 'n'] ++
        ('\n' :: (t ++ '\n' :: fence))) := rfl
  have hlast : (wrapFence t).getLast? = some btChar := by
    show (fenceJson ++ '\n' :: (t ++ '\n' :: fence)).getLast? = some btChar
    apply getLast?_append_right
    have hre : '\n' :: (t ++ '\n' :: fence) = ('\n' :: (t ++ ['\n'])) ++ fence := by
      simp [List.append_assoc]
    rw [hre]
    exact getLast?_append_right _ rfl
  have hdw : (wrapFence t).dropWhile isPySpace = wrapFence t := by
    conv_lhs => rw [hhead]
    rw [List.dropWhile_cons_of_neg (by decide)]
    rw [← hhead]
  rw [hdw]
  exact rstrip_no_strip hlast (by decide)

theorem cleanReply_wrapFence (t : List Char) :
    cleanReply (wrapFence t) =
      '\n' :: (replaceAll fence (replaceAll fenceJson t) ++ ['\n']) := by
  unfold cleanReply
  rw [pyStrip_wrapFence]
  have h7 : replaceAll fenceJson (wrapFence t) =
      '\n' :: (replaceAll fenceJson t ++ '\n' :: fence) := by
    show replaceAll fenceJson (fenceJson ++ ('\n' :: (t ++ '\n' :: fence))) = _
    rw [show ∀ x : List Char, replaceAll fenceJson (fenceJson ++ x) =
        replaceAll fenceJson x from
      replaceAll_self_prefix btChar [btChar, btChar, 'j', 's', 'o', 'n']]
    have hs1 := replaceAll_split (show ('\n' : Char) ∉ fenceJson by decide)
      [] (t ++ '\n' :: fence)
    simp only [List.nil_append, replaceAll_nil] at hs1
    rw [hs1]
    have hs2 := replaceAll_split (show ('\n' : Char) ∉ fenceJson by decide) t fence
    rw [hs2]
    rw [show replaceAll fenceJson fence = fence from by decide]
  rw [h7]
  have hs1 := replaceAll_split (show ('\n' : Char) ∉ fence by decide)
    [] (replaceAll fenceJson t ++ '\n' :: fence)
  simp only [List.nil_append, replaceAll_nil] at hs1
  rw [hs1]
  have hs2 := replaceAll_split (show ('\n' : Char) ∉ fence by decide)
    (replaceAll fenceJson t) fence
  rw [hs2]
  rw [show replaceAll fence fence = ([] : List Char) from by decide]

theorem jsonTrim_cons_wrap (x : List Char) :
    jsonTrim ('\n' :: (x ++ ['\n'])) = jsonTrim x := by
  have h1 : ('\n' :: (x ++ ['\n'])) = ['\n'] ++ (x ++ ['\n']) := rfl
  rw [h1, jsonTrim_pad_left ['\n'] (by decide), jsonTrim_pad_right ['\n'] (by decide)]

theorem gateway_reply (x : List Char) :
    parse_quiz_file_with_ai (CallOutcome.reply x) =
      match jsonLoads (cleanReply x) with
      | some v => v
      | none => Json.arr [] := rfl

/-- C7: wrapping a valid JSON array reply in the fenced code markers
`(```json … ```)` does not change the question store the gateway produces:
the cleaning pass deletes exactly the wrapper (together with whatever it
deletes from the payload on both runs alike), and the parse of the rest is
identical. -/
theorem c7_theorem (t : List Char) (es : List Json)
    (h : jsonLoads t = some (Json.arr es)) :
    parse_quiz_file_with_ai (CallOutcome.reply (wrapFence t)) =
      parse_quiz_file_with_ai (CallOutcome.reply t) := by
  have hstrip : pyStrip t = jsonTrim t := pyStrip_eq_jsonTrim_of_valid h
  obtain ⟨w1, w2, hdec, hw1, hw2⟩ := jsonTrim_decomp t
  have h7 : replaceAll fenceJson t =
      w1 ++ (replaceAll fenceJson (jsonTrim t) ++ w2) := by
    conv_lhs => rw [hdec]
    rw [replaceAll_append_left (fun c hc => (jsonWs_not_in_pats (hw1 c hc)).1),
      replaceAll_append_right (fun c hc => (jsonWs_not_in_pats (hw2 c hc)).1)]
  have h3 : replaceAll fence (replaceAll fenceJson t) =
      w1 ++ (replaceAll fence (replaceAll fenceJson (jsonTrim t)) ++ w2) := by
    rw [h7,
      replaceAll_append_left (fun c hc => (jsonWs_not_in_pats (hw1 c hc)).2),
      replaceAll_append_right (fun c hc => (jsonWs_not_in_pats (hw2 c hc)).2)]
  have hkey : jsonTrim (cleanReply (wrapFence t)) = jsonTrim (cleanReply t) := by
    rw [cleanReply_wrapFence, jsonTrim_cons_wrap]
    unfold cleanReply
    rw [hstrip, h3, jsonTrim_pad_left w1 hw1, jsonTrim_pad_right w2 hw2]
  rw [gateway_reply, gateway_reply, jsonLoads_congr hkey]

/-- C7 witness: the empty JSON array, fenced and bare. -/
theorem c7_witness :
    jsonLoads ("[]".toList) = some (Json.arr []) ∧
    parse_quiz_file_with_ai (CallOutcome.reply (wrapFence "[]".toList)) =
      parse_quiz_file_with_ai (CallOutcome.reply "[]".toList) :=
  ⟨rfl, c7_theorem "[]".toList [] rfl⟩

/-- C9 witness: the two-question round trip. -/
theorem c9_witness :
    (answerAllCorrect
      ([⟨"2+2?", ["3", "4"], "4"⟩, ⟨"1+1?", ["2", "5"], "2"⟩] : List QuestionRecord).length
      (uploadQuiz initialState [⟨"2+2?", ["3", "4"], "4"⟩, ⟨"1+1?", ["2", "5"], "2"⟩])).state =
        Phase.finished ∧
    computeScore (answerAllCorrect
      ([⟨"2+2?", ["3", "4"], "4"⟩, ⟨"1+1?", ["2", "5"], "2"⟩] : List QuestionRecord).length
      (uploadQuiz initialState [⟨"2+2?", ["3", "4"], "4"⟩, ⟨"1+1?", ["2", "5"], "2"⟩])) = 2 :=
  c9_theorem [⟨"2+2?", ["3", "4"], "4"⟩, ⟨"1+1?", ["2", "5"], "2"⟩] (by decide)

end Quiz

